import Mathlib

/-!
Shallow embedding of `src/lfu_cache/models.py` (class `LFUCache`) and proofs
of the specification's claims about it.

`_cache_entries` (a Python dict `key -> [queue_id, value]`) is modelled as an
association list in insertion order with at most one record per key;
`_priority_queue` (a Python list of `[key, access_count]`) as a list of pairs.
Raised `LFUCacheException`s are modelled by `Option`/a returned `Bool` flag.
-/

namespace LFU

variable {K V : Type} [DecidableEq K]

/-- `_cache_entries`: association list of `(key, (queue_id, value))`. -/
abbrev Dict (K V : Type) := List (K × Nat × V)

/-- `_priority_queue`: list of `(key, access_count)` records. -/
abbrev Queue (K : Type) := List (K × Nat)

/-- Python `d[k]` (as an `Option`). -/
def dictLookup (d : Dict K V) (k : K) : Option (Nat × V) :=
  match d with
  | [] => none
  | e :: rest => if e.1 = k then some e.2 else dictLookup rest k

/-- Python `d[k] = qv`: replace in place when the key is present, else append. -/
def dictSet (d : Dict K V) (k : K) (qv : Nat × V) : Dict K V :=
  match d with
  | [] => [(k, qv)]
  | e :: rest => if e.1 = k then (k, qv) :: rest else e :: dictSet rest k qv

/-- Python `del d[k]`. -/
def dictDel (d : Dict K V) (k : K) : Dict K V :=
  match d with
  | [] => []
  | e :: rest => if e.1 = k then rest else e :: dictDel rest k

/-- In-place update of the record of `k` (`d[k][0] -= 1` and the like);
every call site has the key present. -/
def dictUpdate (d : Dict K V) (k : K) (f : Nat × V → Nat × V) : Dict K V :=
  d.map fun e => if e.1 = k then (e.1, f e.2) else e

/-- The cache state: `_limit`, `_cache_entries`, `_priority_queue`,
`_hits`, `_misses`. -/
structure LFUCache (K V : Type) where
  limit : Option Nat
  cache_entries : Dict K V
  priority_queue : Queue K
  hits : Nat
  misses : Nat
deriving DecidableEq

/-- The value handed to `__init__` or the `limit` setter: Python `None`, an
`int`, or any non-`int` value (all non-`int`s take the same code path through
the `isinstance` check). -/
inductive LimitArg where
  | nonelit
  | int (n : Int)
  | nonint
deriving DecidableEq

/-- Which `LimitArg`s pass the validation of `__init__` and the setter
(`None`, or an `int >= 0`). -/
def validLimitArg : LimitArg → Bool
  | .nonelit => true
  | .int n => decide (0 ≤ n)
  | .nonint => false

/-- `LFUCache.__init__`; `none` models the raised `LFUCacheException`. -/
def init (limit : LimitArg) : Option (LFUCache K V) :=
  match limit with
  | .nonelit => some ⟨none, [], [], 0, 0⟩
  | .int n => if n < 0 then none else some ⟨some n.toNat, [], [], 0, 0⟩
  | .nonint => none

/-- `LFUCache.__len__`. -/
def LFUCache.len (c : LFUCache K V) : Nat := c.priority_queue.length

/-- The `while excessive_entries > 0` loop of the `limit` setter: pop the last
queue record and delete its key, `n` times. -/
def truncate (d : Dict K V) (q : Queue K) : Nat → Dict K V × Queue K
  | 0 => (d, q)
  | n + 1 =>
    match q.getLast? with
    | some item => truncate (dictDel d item.1) q.dropLast n
    | none => (d, q)

/-- The `limit` setter. Returns the state at exit and whether
`LFUCacheException` was raised; the raise happens before any mutation, so a
raising call returns the state it received. -/
def LFUCache.setLimit (c : LFUCache K V) (new_limit : LimitArg) :
    LFUCache K V × Bool :=
  match new_limit with
  | .nonelit => ({ c with limit := none }, false)
  | .nonint => (c, true)
  | .int n =>
    if n < 0 then (c, true)
    else
      let dq := truncate c.cache_entries c.priority_queue
        (c.priority_queue.length - n.toNat)
      ({ c with cache_entries := dq.1, priority_queue := dq.2,
                limit := some n.toNat }, false)

/-- `LFUCache.clear`: empties both structures, counters untouched. -/
def LFUCache.clear (c : LFUCache K V) : LFUCache K V :=
  { c with cache_entries := [], priority_queue := [] }

/-- `LFUCache.has_cache`. -/
def LFUCache.has_cache (c : LFUCache K V) (k : K) : Bool :=
  (dictLookup c.cache_entries k).isSome

/-- The `for item in self._priority_queue[queue_id:]` loop of `remove` and
`_remove_by_id`: decrement the indexed slot of each listed key. -/
def shiftLeft (d : Dict K V) (items : Queue K) : Dict K V :=
  items.foldl (fun d item => dictUpdate d item.1 fun p => (p.1 - 1, p.2)) d

/-- `LFUCache._remove_by_id`. -/
def LFUCache.remove_by_id (c : LFUCache K V) (queue_id : Nat) :
    LFUCache K V × Bool :=
  match c.priority_queue[queue_id]? with
  | none => (c, false)
  | some entry =>
    let d := dictDel c.cache_entries entry.1
    let q := c.priority_queue.eraseIdx queue_id
    let d := shiftLeft d (q.drop queue_id)
    ({ c with cache_entries := d, priority_queue := q }, true)

/-- `LFUCache.remove`. -/
def LFUCache.remove (c : LFUCache K V) (k : K) : LFUCache K V × Bool :=
  match dictLookup c.cache_entries k with
  | none => (c, false)
  | some p =>
    let q := c.priority_queue.eraseIdx p.1
    let d := dictDel c.cache_entries k
    let d := shiftLeft d (q.drop p.1)
    ({ c with cache_entries := d, priority_queue := q }, true)

/-- The swap loop of `_increment_access_count`, entered at `queue_id = i`;
returns the dict, the queue and the final `queue_id`. -/
def bubble (d : Dict K V) (q : Queue K) : Nat → Dict K V × Queue K × Nat
  | 0 => (d, q, 0)
  | j + 1 =>
    match q[j + 1]?, q[j]? with
    | some ei, some ej =>
      if ej.2 < ei.2 then
        bubble (dictUpdate d ej.1 fun p => (j + 1, p.2))
          ((q.set (j + 1) ej).set j ei) j
      else (d, q, j + 1)
    | _, _ => (d, q, j + 1)

/-- `LFUCache._increment_access_count` (whose callers all check `has_cache`
first, so the key is present at every call site). -/
def LFUCache.increment_access_count (c : LFUCache K V) (k : K) :
    LFUCache K V :=
  match dictLookup c.cache_entries k with
  | none => c
  | some p =>
    let q :=
      match c.priority_queue[p.1]? with
      | some e => c.priority_queue.set p.1 (e.1, e.2 + 1)
      | none => c.priority_queue
    let dqi := bubble c.cache_entries q p.1
    let d := dictUpdate dqi.1 k fun pr => (dqi.2.2, pr.2)
    { c with cache_entries := d, priority_queue := dqi.2.1 }

/-- `LFUCache.get`. -/
def LFUCache.get (c : LFUCache K V) (k : K) (default : V) :
    LFUCache K V × V :=
  if ¬ c.has_cache k then (c, default)
  else
    let c1 := { c with hits := c.hits + 1 }
    let c2 := c1.increment_access_count k
    match dictLookup c2.cache_entries k with
    | some p => (c2, p.2)
    | none => (c2, default)

/-- `LFUCache.add`. -/
def LFUCache.add (c : LFUCache K V) (k : K) (v : V) (update : Bool) :
    LFUCache K V × Bool :=
  if c.limit = some 0 then (c, false)
  else if ¬ c.has_cache k then
    let queue_len := c.len
    let cq : LFUCache K V × Nat :=
      match c.limit with
      | some l =>
        if l ≤ queue_len then ((c.remove_by_id (l - 1)).1, queue_len - 1)
        else (c, queue_len)
      | none => (c, queue_len)
    let q := cq.1.priority_queue ++ [(k, 1)]
    let d := dictSet cq.1.cache_entries k (cq.2, v)
    ({ cq.1 with cache_entries := d, priority_queue := q,
                 misses := cq.1.misses + 1 }, true)
  else if update then
    let c1 := c.increment_access_count k
    let d := dictUpdate c1.cache_entries k fun p => (p.1, v)
    ({ c1 with cache_entries := d, misses := c1.misses + 1 }, true)
  else (c, false)

/-- The `_CacheEntry` namedtuple produced by `retrieve`. -/
structure CacheEntry (K V : Type) where
  key : K
  value : V
  access_count : Nat
deriving DecidableEq

/-- `LFUCache.retrieve` (the slice `self._priority_queue[start:end]` for
absent or non-negative bounds). -/
def LFUCache.retrieve (c : LFUCache K V)
    (start : Option Nat := none) (stop : Option Nat := none) :
    List (CacheEntry K V) :=
  ((c.priority_queue.take (stop.getD c.priority_queue.length)).drop
      (start.getD 0)).filterMap
    fun e => (dictLookup c.cache_entries e.1).map fun p => ⟨e.1, p.2, e.2⟩

/-- One call to a public mutating operation of the cache. -/
inductive Op (K V : Type) where
  | add (k : K) (v : V) (update : Bool)
  | get (k : K) (default : V)
  | remove (k : K)
  | clear
  | setLimit (l : LimitArg)

/-- Execute one public operation, keeping the resulting state. -/
def step (c : LFUCache K V) : Op K V → LFUCache K V
  | .add k v u => (c.add k v u).1
  | .get k d => (c.get k d).1
  | .remove k => (c.remove k).1
  | .clear => c.clear
  | .setLimit l => (c.setLimit l).1

/-- Execute a sequence of public operations. -/
def run (c : LFUCache K V) (ops : List (Op K V)) : LFUCache K V :=
  ops.foldl step c

/-- The public methods of `LFUCache`. -/
inductive Method where
  | initMethod
  | limitGet
  | limitSet
  | hitsGet
  | missesGet
  | clear
  | add
  | has_cache
  | get
  | remove
  | lenMethod
  | retrieve
deriving DecidableEq

/-- Whether the method's body enters `with self._lock` in
`src/lfu_cache/models.py` (read off each method's source). -/
def acquiresLock : Method → Bool
  | .initMethod => false
  | .limitGet => false
  | .limitSet => true
  | .hitsGet => false
  | .missesGet => false
  | .clear => true
  | .add => true
  | .has_cache => true
  | .get => true
  | .remove => true
  | .lenMethod => false
  | .retrieve => false

/-- The keys of the dict, in record order. -/
def dkeys (d : Dict K V) : List K := d.map Prod.fst

/-- The keys of the priority queue, in slot order. -/
def qkeys (q : Queue K) : List K := q.map Prod.fst

/-- Re-index helper describing the dict writes of the swap loop: the key of
`w[t]` gets slot `p + t + 1`. -/
def bumpFrom (d : Dict K V) (p : Nat) : Queue K → Dict K V
  | [] => d
  | x :: rest => bumpFrom (dictUpdate d x.1 fun pr => (p + 1, pr.2)) (p + 1) rest

/-- The slot at which the swap loop entered at `i` stops, for a moved record
of access count `cnt`. -/
def finalPos (q : Queue K) (cnt : Nat) : Nat → Nat
  | 0 => 0
  | j + 1 => if ((q[j]?).map Prod.snd).getD cnt < cnt then finalPos q cnt j else j + 1

/-- The structural invariant tying `_cache_entries` to `_priority_queue`:
sizes agree, dict keys are unique, every dict record points at the queue slot
holding its key, counts are positive, and the queue is sorted by
non-increasing access count. -/
structure DQInv (d : Dict K V) (q : Queue K) : Prop where
  len_eq : d.length = q.length
  nodup : (dkeys d).Nodup
  points : ∀ κ pr, dictLookup d κ = some pr → ∃ cnt, q[pr.1]? = some (κ, cnt)
  pos : ∀ e ∈ q, 1 ≤ e.2
  sorted : q.Pairwise fun a b => b.2 ≤ a.2

/-- The invariant of reachable cache states. -/
structure Inv (c : LFUCache K V) : Prop where
  dq : DQInv c.cache_entries c.priority_queue
  cap : ∀ n, c.limit = some n → c.priority_queue.length ≤ n

/-- The spec's seed cache: limit 5, keys `"0" .. "4"` added in order with
values 10 .. 14, each at access count 1. -/
def seed5 : LFUCache String Nat :=
  run ⟨some 5, [], [], 0, 0⟩
    [.add "0" 10 false, .add "1" 11 false, .add "2" 12 false,
     .add "3" 13 false, .add "4" 14 false]

/-- A two-entry cache used to exercise promotion concretely. -/
def pair2 : LFUCache String Nat :=
  run ⟨some 5, [], [], 0, 0⟩ [.add "a" 1 false, .add "b" 2 false]

end LFU

/-! ## Lemmas on the dict primitives -/

namespace LFU

variable {K V : Type} [DecidableEq K]
variable {d : Dict K V} {k κ : K} {p : Nat × V} {f : Nat × V → Nat × V}

theorem dictLookup_eq_none_iff : dictLookup d k = none ↔ k ∉ dkeys d := by
  induction d with
  | nil => simp [dictLookup, dkeys]
  | cons e rest ih =>
    simp only [dictLookup, dkeys, List.map_cons, List.mem_cons]
    by_cases h : e.1 = k
    · simp [h]
    · simp only [if_neg h]
      rw [ih]
      constructor
      · intro hn hc
        rcases hc with hc | hc
        · exact h hc.symm
        · exact hn hc
      · intro hn hc
        exact hn (Or.inr hc)

theorem dictLookup_isSome_iff : (dictLookup d k).isSome ↔ k ∈ dkeys d := by
  rw [Option.isSome_iff_ne_none, ne_eq, dictLookup_eq_none_iff, not_not]

theorem mem_of_dictLookup (h : dictLookup d k = some p) : (k, p) ∈ d := by
  induction d with
  | nil => simp [dictLookup] at h
  | cons e rest ih =>
    by_cases he : e.1 = k
    · simp only [dictLookup, if_pos he] at h
      have hp : e.2 = p := by injection h
      exact List.mem_cons.2 (Or.inl (by rw [← he, ← hp]))
    · simp only [dictLookup, if_neg he] at h
      exact List.mem_cons.2 (Or.inr (ih h))

theorem dictLookup_of_mem (hn : (dkeys d).Nodup) (h : (k, p) ∈ d) :
    dictLookup d k = some p := by
  induction d with
  | nil => simp at h
  | cons e rest ih =>
    simp only [dkeys, List.map_cons, List.nodup_cons] at hn
    rcases List.mem_cons.1 h with h | h
    · simp [dictLookup, ← h]
    · have hk : k ∈ dkeys rest := by
        simpa [dkeys] using List.mem_map_of_mem Prod.fst h
      have hne : ¬ e.1 = k := fun he => hn.1 (he ▸ hk)
      simp only [dictLookup, if_neg hne]
      exact ih hn.2 h

theorem dkeys_dictUpdate : dkeys (dictUpdate d k f) = dkeys d := by
  induction d with
  | nil => rfl
  | cons e rest ih =>
    by_cases h : e.1 = k <;> simp_all [dictUpdate, dkeys]

theorem length_dictUpdate : (dictUpdate d k f).length = d.length := by
  simp [dictUpdate]

theorem dictLookup_dictUpdate_self :
    dictLookup (dictUpdate d k f) k = (dictLookup d k).map f := by
  induction d with
  | nil => rfl
  | cons e rest ih =>
    simp only [dictUpdate, List.map_cons]
    by_cases h : e.1 = k
    · simp [dictLookup, h]
    · simp only [if_neg h, dictLookup, h, if_false]
      simpa [dictUpdate] using ih

theorem dictLookup_dictUpdate_ne (h : κ ≠ k) :
    dictLookup (dictUpdate d k f) κ = dictLookup d κ := by
  induction d with
  | nil => rfl
  | cons e rest ih =>
    simp only [dictUpdate, List.map_cons]
    by_cases hek : e.1 = k
    · have heκ : ¬ e.1 = κ := fun hc => h (by rw [← hc]; exact hek)
      simp only [if_pos hek, dictLookup, if_neg heκ]
      simpa [dictUpdate] using ih
    · by_cases heκ : e.1 = κ
      · simp [if_neg hek, dictLookup, heκ, h]
      · simp only [if_neg hek, dictLookup, if_neg heκ]
        simpa [dictUpdate] using ih

theorem dkeys_dictDel : dkeys (dictDel d k) = (dkeys d).erase k := by
  induction d with
  | nil => rfl
  | cons e rest ih =>
    by_cases h : e.1 = k <;>
      simp [dictDel, dkeys, List.erase_cons, h, ih] at ih ⊢ <;> simp [ih]

theorem length_dictDel_of_mem (h : k ∈ dkeys d) :
    (dictDel d k).length = d.length - 1 := by
  induction d with
  | nil => simp [dkeys] at h
  | cons e rest ih =>
    by_cases he : e.1 = k
    · simp [dictDel, he]
    · have hmem : k ∈ dkeys rest := by
        simp only [dkeys, List.map_cons, List.mem_cons] at h
        rcases h with h | h
        · exact absurd h.symm he
        · exact h
      have hlen : 1 ≤ rest.length := by
        rcases rest with _ | ⟨x, xs⟩
        · simp [dkeys] at hmem
        · simp
      simp only [dictDel, if_neg he, List.length_cons, ih hmem]
      omega

theorem dictLookup_dictDel_self (hn : (dkeys d).Nodup) :
    dictLookup (dictDel d k) k = none := by
  rw [dictLookup_eq_none_iff, dkeys_dictDel]
  exact hn.not_mem_erase

theorem dictLookup_dictDel_ne (h : κ ≠ k) :
    dictLookup (dictDel d k) κ = dictLookup d κ := by
  induction d with
  | nil => rfl
  | cons e rest ih =>
    by_cases hek : e.1 = k
    · have heκ : ¬ e.1 = κ := fun hc => h (by rw [← hc]; exact hek)
      simp [dictDel, hek, dictLookup, heκ, Ne.symm h]
    · by_cases heκ : e.1 = κ
      · simp [dictDel, hek, dictLookup, heκ, h]
      · simp [dictDel, hek, dictLookup, heκ, ih]

theorem dictSet_of_not_mem (h : k ∉ dkeys d) :
    dictSet d k p = d ++ [(k, p)] := by
  induction d with
  | nil => rfl
  | cons e rest ih =>
    simp only [dkeys, List.map_cons, List.mem_cons] at h
    push_neg at h
    have hek : ¬ e.1 = k := fun hc => h.1 hc.symm
    simp only [dictSet, if_neg hek, List.cons_append]
    rw [ih (by simpa [dkeys] using h.2)]

theorem dictLookup_append {d₂ : Dict K V} :
    dictLookup (d ++ d₂) k = (dictLookup d k).or (dictLookup d₂ k) := by
  induction d with
  | nil => simp [dictLookup]
  | cons e rest ih =>
    by_cases h : e.1 = k <;> simp [dictLookup, h, ih]

end LFU

/-! ## Lemmas on `shiftLeft`, `bumpFrom` and `finalPos` -/

namespace LFU

variable {K V : Type} [DecidableEq K]
variable {d : Dict K V} {k κ : K} {q : Queue K} {items w : Queue K}
variable {x : K × Nat} {cnt i p t : Nat}

theorem shiftLeft_cons :
    shiftLeft d (x :: items) =
      shiftLeft (dictUpdate d x.1 fun p => (p.1 - 1, p.2)) items := rfl

theorem length_shiftLeft : (shiftLeft d items).length = d.length := by
  induction items generalizing d with
  | nil => rfl
  | cons x rest ih => rw [shiftLeft_cons, ih, length_dictUpdate]

theorem dkeys_shiftLeft : dkeys (shiftLeft d items) = dkeys d := by
  induction items generalizing d with
  | nil => rfl
  | cons x rest ih => rw [shiftLeft_cons, ih, dkeys_dictUpdate]

theorem shiftLeft_lookup_not_mem (h : κ ∉ qkeys items) :
    dictLookup (shiftLeft d items) κ = dictLookup d κ := by
  induction items generalizing d with
  | nil => rfl
  | cons x rest ih =>
    simp only [qkeys, List.map_cons, List.mem_cons] at h
    push_neg at h
    rw [shiftLeft_cons, ih (by simpa [qkeys] using h.2),
      dictLookup_dictUpdate_ne h.1]

theorem shiftLeft_lookup_mem (hn : (qkeys items).Nodup) (h : κ ∈ qkeys items) :
    dictLookup (shiftLeft d items) κ =
      (dictLookup d κ).map fun p => (p.1 - 1, p.2) := by
  induction items generalizing d with
  | nil => simp [qkeys] at h
  | cons x rest ih =>
    simp only [qkeys, List.map_cons, List.nodup_cons] at hn
    rcases (by simpa [qkeys] using h : κ = x.1 ∨ κ ∈ qkeys rest) with hx | hx
    · subst hx
      rw [shiftLeft_cons, shiftLeft_lookup_not_mem (by simpa [qkeys] using hn.1),
        dictLookup_dictUpdate_self]
    · have hκx : κ ≠ x.1 := fun hc => hn.1 (by simpa [qkeys, hc] using hx)
      rw [shiftLeft_cons, ih hn.2 hx, dictLookup_dictUpdate_ne hκx]

theorem bumpFrom_cons :
    bumpFrom d p (x :: w) =
      bumpFrom (dictUpdate d x.1 fun pr => (p + 1, pr.2)) (p + 1) w := rfl

theorem length_bumpFrom : (bumpFrom d p w).length = d.length := by
  induction w generalizing d p with
  | nil => rfl
  | cons x rest ih => rw [bumpFrom_cons, ih, length_dictUpdate]

theorem dkeys_bumpFrom : dkeys (bumpFrom d p w) = dkeys d := by
  induction w generalizing d p with
  | nil => rfl
  | cons x rest ih => rw [bumpFrom_cons, ih, dkeys_dictUpdate]

theorem bumpFrom_lookup_not_mem (h : κ ∉ qkeys w) :
    dictLookup (bumpFrom d p w) κ = dictLookup d κ := by
  induction w generalizing d p with
  | nil => rfl
  | cons x rest ih =>
    simp only [qkeys, List.map_cons, List.mem_cons] at h
    push_neg at h
    rw [bumpFrom_cons, ih (by simpa [qkeys] using h.2),
      dictLookup_dictUpdate_ne h.1]

theorem bumpFrom_lookup_get (hn : (qkeys w).Nodup) {x : K × Nat}
    (hw : w[t]? = some x) (hx : x.1 = κ) :
    dictLookup (bumpFrom d p w) κ =
      (dictLookup d κ).map fun pr => (p + t + 1, pr.2) := by
  induction w generalizing d p t with
  | nil => simp at hw
  | cons y rest ih =>
    simp only [qkeys, List.map_cons, List.nodup_cons] at hn
    cases t with
    | zero =>
      rw [List.getElem?_cons_zero] at hw
      injection hw with hw1
      subst hw1
      subst hx
      rw [bumpFrom_cons, bumpFrom_lookup_not_mem (by simpa [qkeys] using hn.1),
        dictLookup_dictUpdate_self]
    | succ s =>
      rw [List.getElem?_cons_succ] at hw
      have hκy : κ ≠ y.1 := by
        intro hc
        apply hn.1
        rw [← hc, ← hx]
        refine List.mem_map_of_mem Prod.fst ?_
        rw [List.mem_iff_getElem?]
        exact ⟨s, hw⟩
      rw [bumpFrom_cons, ih hn.2 hw, dictLookup_dictUpdate_ne hκy]
      have harith : p + 1 + s + 1 = p + (s + 1) + 1 := by omega
      simp only [harith]

theorem finalPos_le : finalPos q cnt i ≤ i := by
  induction i with
  | zero => simp [finalPos]
  | succ j ih =>
    rw [finalPos]
    split
    · exact le_trans ih (Nat.le_succ j)
    · exact le_refl _

theorem finalPos_window {m : Nat} (h1 : finalPos q cnt i ≤ m) (h2 : m < i) :
    ∃ e, q[m]? = some e ∧ e.2 < cnt := by
  induction i with
  | zero => omega
  | succ j ih =>
    rw [finalPos] at h1
    by_cases hc : ((q[j]?).map Prod.snd).getD cnt < cnt
    · rw [if_pos hc] at h1
      by_cases hm : m < j
      · exact ih h1 hm
      · have hmj : m = j := by omega
        subst hmj
        cases hq : q[m]? with
        | none => rw [hq] at hc; simp at hc
        | some e =>
          rw [hq] at hc
          simp only [Option.map_some', Option.getD_some] at hc
          exact ⟨e, rfl, hc⟩
    · rw [if_neg hc] at h1; omega

theorem finalPos_stop (hi : i ≤ q.length) (h : 0 < finalPos q cnt i) :
    ∃ e, q[finalPos q cnt i - 1]? = some e ∧ cnt ≤ e.2 := by
  induction i with
  | zero => simp [finalPos] at h
  | succ j ih =>
    rw [finalPos] at h ⊢
    by_cases hc : ((q[j]?).map Prod.snd).getD cnt < cnt
    · rw [if_pos hc] at h ⊢
      exact ih (le_trans (Nat.le_succ j) hi) h
    · rw [if_neg hc]
      cases hq : q[j]? with
      | none =>
        have : q.length ≤ j := List.getElem?_eq_none_iff.mp hq
        omega
      | some e =>
        rw [hq] at hc
        simp only [Option.map_some', Option.getD_some, not_lt] at hc
        refine ⟨e, ?_, hc⟩
        simpa using hq

theorem finalPos_congr {q' : Queue K} (h : ∀ m, m < i → q'[m]? = q[m]?) :
    finalPos q' cnt i = finalPos q cnt i := by
  induction i with
  | zero => rfl
  | succ j ih =>
    rw [finalPos, finalPos, h j (Nat.lt_succ_self j),
      ih fun m hm => h m (Nat.lt_succ_of_lt hm)]

end LFU

/-! ## Closed form of the swap loop -/

namespace LFU

variable {K V : Type} [DecidableEq K]
variable {d : Dict K V} {κ : K} {q w : Queue K} {x : K × Nat} {p : Nat}

theorem take_set_of_le {α : Type} {l : List α} {m n : Nat} {a : α} (h : n ≤ m) :
    (l.set m a).take n = l.take n := by
  apply List.ext_getElem?
  intro t
  simp only [List.getElem?_take]
  split
  · exact List.getElem?_set_ne (by omega)
  · rfl

theorem drop_set_of_lt {α : Type} {l : List α} {m n : Nat} {a : α} (h : m < n) :
    (l.set m a).drop n = l.drop n := by
  rw [List.drop_set, if_pos h]

theorem drop_set_self {α : Type} {l : List α} {n : Nat} {a : α}
    (h : n < l.length) : (l.set n a).drop n = a :: l.drop (n + 1) := by
  rw [List.drop_set, if_neg (lt_irrefl n), Nat.sub_self,
    List.drop_eq_getElem_cons h]
  rfl

theorem drop_eq_cons_of_getElem? {α : Type} {l : List α} {n : Nat} {a : α}
    (h : l[n]? = some a) : l.drop n = a :: l.drop (n + 1) := by
  obtain ⟨h1, h2⟩ := List.getElem?_eq_some.mp h
  rw [List.drop_eq_getElem_cons h1, h2]

theorem take_succ_of_getElem? {α : Type} {l : List α} {n : Nat} {a : α}
    (h : l[n]? = some a) : l.take (n + 1) = l.take n ++ [a] := by
  rw [List.take_succ, h]
  rfl

theorem dictUpdate_comm {k1 k2 : K} {f g : Nat × V → Nat × V} (h : k1 ≠ k2) :
    dictUpdate (dictUpdate d k1 f) k2 g = dictUpdate (dictUpdate d k2 g) k1 f := by
  simp only [dictUpdate, List.map_map]
  congr 1
  funext e
  by_cases h1 : e.1 = k1 <;> by_cases h2 : e.1 = k2
  · exact absurd (h1.symm.trans h2) h
  · simp [Function.comp, h1, h2, h, Ne.symm h]
  · simp [Function.comp, h1, h2, h, Ne.symm h]
  · simp [Function.comp, h1, h2]

theorem bumpFrom_dictUpdate_comm {f : Nat × V → Nat × V} (h : κ ∉ qkeys w) :
    bumpFrom (dictUpdate d κ f) p w = dictUpdate (bumpFrom d p w) κ f := by
  induction w generalizing d p with
  | nil => rfl
  | cons x rest ih =>
    simp only [qkeys, List.map_cons, List.mem_cons] at h
    push_neg at h
    rw [bumpFrom_cons, dictUpdate_comm h.1, ih (by simpa [qkeys] using h.2),
      bumpFrom_cons]

theorem bumpFrom_append_singleton :
    bumpFrom d p (w ++ [x]) =
      dictUpdate (bumpFrom d p w) x.1 fun pr => (p + w.length + 1, pr.2) := by
  induction w generalizing d p with
  | nil => rfl
  | cons y rest ih =>
    rw [List.cons_append, bumpFrom_cons, ih, bumpFrom_cons]
    have harith : p + 1 + rest.length + 1 = p + (y :: rest).length + 1 := by
      simp
      omega
    simp only [harith]

theorem bubble_spec (i : Nat) :
    ∀ (d : Dict K V) (q : Queue K) (e : K × Nat),
      q[i]? = some e → ((q.take i).map Prod.fst).Nodup →
      bubble d q i =
        (bumpFrom d (finalPos q e.2 i) ((q.take i).drop (finalPos q e.2 i)),
         q.take (finalPos q e.2 i) ++
           e :: ((q.take i).drop (finalPos q e.2 i)) ++ q.drop (i + 1),
         finalPos q e.2 i) := by
  induction i with
  | zero =>
    intro d q e he _
    have hq := drop_eq_cons_of_getElem? (l := q) (n := 0) he
    simp only [List.drop_zero] at hq
    simp only [bubble, finalPos, List.take_zero, List.drop_zero,
      List.nil_append, bumpFrom, Prod.mk.injEq]
    refine ⟨trivial, ?_, trivial⟩
    simpa using hq
  | succ j ih =>
    intro d q e he hn
    have hlen : j + 1 < q.length := (List.getElem?_eq_some.mp he).1
    have hjlt : j < q.length := by omega
    have hj : q[j]? = some (q.get ⟨j, hjlt⟩) := List.getElem?_eq_getElem hjlt
    set ej := q.get ⟨j, hjlt⟩ with hej
    set p := finalPos q e.2 j with hp
    have hfp : finalPos q e.2 (j + 1) = if ej.2 < e.2 then p else j + 1 := by
      rw [finalPos, hj]
      rfl
    have htakej : q.take (j + 1) = q.take j ++ [ej] := take_succ_of_getElem? hj
    by_cases hc : ej.2 < e.2
    · -- swap branch
      have hq2e : ((q.set (j + 1) ej).set j e)[j]? = some e :=
        List.getElem?_set_eq_of_lt e (by simpa using hjlt)
      have htk : ((q.set (j + 1) ej).set j e).take j = q.take j := by
        rw [take_set_of_le (le_refl j), take_set_of_le (by omega)]
      have hnj : ((q.take j).map Prod.fst).Nodup := by
        have hsub : List.Sublist (q.take j) (q.take (j + 1)) := by
          rw [htakej]
          exact List.sublist_append_left _ _
        exact hn.sublist (hsub.map Prod.fst)
      have hfp2 : finalPos ((q.set (j + 1) ej).set j e) e.2 j = p := by
        rw [hp]
        apply finalPos_congr
        intro m hm
        rw [List.getElem?_set_ne (by omega : j ≠ m),
          List.getElem?_set_ne (by omega : j + 1 ≠ m)]
      have hple : p ≤ j := finalPos_le
      have hkeysucc : ((q.take j).map Prod.fst ++ [ej.1]).Nodup := by
        simpa [htakej] using hn
      have hejnotin : ej.1 ∉ (q.take j).map Prod.fst := by
        have hdisj := (List.nodup_append.mp hkeysucc).2.2
        intro hmem
        exact hdisj hmem (List.mem_singleton_self _)
      have hejnotw : ej.1 ∉ qkeys ((q.take j).drop p) := by
        intro hmem
        apply hejnotin
        have hss : qkeys ((q.take j).drop p) ⊆ qkeys (q.take j) :=
          ((List.drop_sublist p (q.take j)).map Prod.fst).subset
        exact hss hmem
      have hwin : (((q.set (j + 1) ej).set j e).take j).drop p =
          (q.take j).drop p := by rw [htk]
      have htkp : ((q.set (j + 1) ej).set j e).take p = q.take p := by
        rw [take_set_of_le (by omega), take_set_of_le (by omega)]
      have hdrop : ((q.set (j + 1) ej).set j e).drop (j + 1) =
          ej :: q.drop (j + 1 + 1) := by
        rw [drop_set_of_lt (by omega), drop_set_self (by simpa using hlen)]
      have hwlen : ((q.take j).drop p).length = j - p := by
        simp
        omega
      have hwin1 : (q.take (j + 1)).drop p = (q.take j).drop p ++ [ej] := by
        rw [htakej, List.drop_append_eq_append_drop]
        have hz : p - (q.take j).length = 0 := by
          simp
          omega
        rw [hz]
        rfl
      simp only [bubble, he, hj, ← hej]
      rw [if_pos hc,
        ih (dictUpdate d ej.1 fun pr => (j + 1, pr.2))
          ((q.set (j + 1) ej).set j e) e hq2e (by rw [htk]; exact hnj),
        hfp2, hfp, if_pos hc]
      simp only [Prod.mk.injEq]
      refine ⟨?_, ?_, trivial⟩
      · rw [hwin, bumpFrom_dictUpdate_comm hejnotw, hwin1,
          bumpFrom_append_singleton, hwlen]
        have harith : p + (j - p) + 1 = j + 1 := by omega
        simp only [harith]
      · rw [hwin, htkp, hdrop, hwin1]
        simp [List.append_assoc]
    · -- stop branch
      simp only [bubble, he, hj, ← hej]
      rw [if_neg hc, hfp, if_neg hc]
      have hdropnil : (q.take (j + 1)).drop (j + 1) = [] :=
        List.drop_eq_nil_of_le (by simp)
      rw [hdropnil]
      simp only [Prod.mk.injEq]
      refine ⟨rfl, ?_, trivial⟩
      have hq : q.drop (j + 1) = e :: q.drop (j + 1 + 1) :=
        drop_eq_cons_of_getElem? he
      rw [List.append_assoc, List.singleton_append, ← hq,
        List.take_append_drop]

end LFU

/-! ## Consequences of the structural invariant -/

namespace LFU

variable {K V : Type} [DecidableEq K]
variable {d : Dict K V} {q : Queue K} {κ : K}

theorem DQInv.points_mem (hI : DQInv d q) :
    ∀ e ∈ d, ∃ cnt, q[e.2.1]? = some (e.1, cnt) := by
  intro e he
  exact hI.points e.1 e.2 (dictLookup_of_mem hI.nodup he)

theorem DQInv.qids_nodup (hI : DQInv d q) :
    (d.map fun e => e.2.1).Nodup := by
  rw [List.Nodup, List.pairwise_map]
  have hkeys : d.Pairwise fun a b => a.1 ≠ b.1 := by
    have := hI.nodup
    rw [dkeys, List.Nodup, List.pairwise_map] at this
    exact this
  refine hkeys.imp_of_mem ?_
  intro a b ha hb hne heq
  obtain ⟨ca, hqa⟩ := hI.points_mem a ha
  obtain ⟨cb, hqb⟩ := hI.points_mem b hb
  rw [heq, hqb] at hqa
  injection hqa with h1
  rw [Prod.mk.injEq] at h1
  exact hne h1.1.symm

theorem DQInv.slot_mem (hI : DQInv d q) {i : Nat} (hi : i < q.length) :
    i ∈ d.map fun e => e.2.1 := by
  have hnd := hI.qids_nodup
  have hsub : (d.map fun e => e.2.1).toFinset ⊆ Finset.range q.length := by
    intro x hx
    rw [List.mem_toFinset, List.mem_map] at hx
    obtain ⟨e, he, hex⟩ := hx
    obtain ⟨cnt, hq⟩ := hI.points_mem e he
    rw [Finset.mem_range, ← hex]
    exact (List.getElem?_eq_some.mp hq).1
  have hcard : (Finset.range q.length).card ≤
      (d.map fun e => e.2.1).toFinset.card := by
    rw [Finset.card_range, List.toFinset_card_of_nodup hnd, List.length_map,
      hI.len_eq]
  have heq := Finset.eq_of_subset_of_card_le hsub hcard
  have : i ∈ Finset.range q.length := Finset.mem_range.mpr hi
  rw [← heq, List.mem_toFinset] at this
  exact this

theorem DQInv.slot_lookup (hI : DQInv d q) {i : Nat} (hi : i < q.length) :
    ∃ v, dictLookup d (q.get ⟨i, hi⟩).1 = some (i, v) := by
  obtain ⟨e, he, hei⟩ := List.mem_map.mp (hI.slot_mem hi)
  obtain ⟨cnt, hq⟩ := hI.points_mem e he
  rw [hei] at hq
  have hqi : q.get ⟨i, hi⟩ = (e.1, cnt) := by
    have := List.getElem?_eq_getElem hi
    rw [this] at hq
    injection hq
  refine ⟨e.2.2, ?_⟩
  rw [hqi]
  have : dictLookup d e.1 = some e.2 := dictLookup_of_mem hI.nodup he
  rw [this, ← hei]

theorem DQInv.qkeys_nodup (hI : DQInv d q) : (qkeys q).Nodup := by
  rw [qkeys, List.Nodup, List.pairwise_map, List.pairwise_iff_getElem]
  intro i j hi hj hij heq
  obtain ⟨vi, hvi⟩ := hI.slot_lookup hi
  obtain ⟨vj, hvj⟩ := hI.slot_lookup hj
  simp only [List.get_eq_getElem] at hvi hvj
  rw [heq, hvj] at hvi
  injection hvi with h
  rw [Prod.mk.injEq] at h
  obtain ⟨h2, -⟩ := h
  omega

theorem DQInv.key_at (hI : DQInv d q) {i : Nat} {pr : Nat × V}
    (h : dictLookup d κ = some pr) (hq : i < q.length)
    (hk : (q.get ⟨i, hq⟩).1 = κ) : pr.1 = i := by
  obtain ⟨v, hv⟩ := hI.slot_lookup hq
  rw [hk, h] at hv
  injection hv with h1
  rw [Prod.ext_iff] at h1
  exact h1.1

end LFU

/-! ## Preservation of the invariant by removal -/

namespace LFU

variable {K V : Type} [DecidableEq K]
variable {d : Dict K V} {q : Queue K} {κ : K}

theorem DQInv.removeAt (hI : DQInv d q) {i : Nat} (hi : i < q.length) :
    DQInv (shiftLeft (dictDel d (q.get ⟨i, hi⟩).1) ((q.eraseIdx i).drop i))
      (q.eraseIdx i) := by
  obtain ⟨v₀, hkl⟩ := hI.slot_lookup hi
  have hkmem : (q.get ⟨i, hi⟩).1 ∈ dkeys d := by
    rw [← dictLookup_isSome_iff, hkl]
    rfl
  have hqe : (q.eraseIdx i).length = q.length - 1 := by
    rw [List.length_eraseIdx, if_pos hi]
  have hq'lt : ∀ t, t < i → (q.eraseIdx i)[t]? = q[t]? := by
    intro t ht
    rw [List.getElem?_eraseIdx, if_pos ht]
  have hq'ge : ∀ t, i ≤ t → (q.eraseIdx i)[t]? = q[t + 1]? := by
    intro t ht
    rw [List.getElem?_eraseIdx, if_neg (by omega)]
  have hq'sub : List.Sublist (q.eraseIdx i) q := List.eraseIdx_sublist q i
  have hitems_nd : (qkeys ((q.eraseIdx i).drop i)).Nodup :=
    hI.qkeys_nodup.sublist
      (((List.drop_sublist i (q.eraseIdx i)).trans hq'sub).map Prod.fst)
  constructor
  · rw [length_shiftLeft, length_dictDel_of_mem hkmem, hI.len_eq, hqe]
  · rw [dkeys_shiftLeft, dkeys_dictDel]
    exact hI.nodup.erase _
  · intro κ pr hlook'
    by_cases hκ : κ = (q.get ⟨i, hi⟩).1
    · exfalso
      rw [hκ] at hlook'
      have h1 : dictLookup (dictDel d (q.get ⟨i, hi⟩).1) (q.get ⟨i, hi⟩).1 = none :=
        dictLookup_dictDel_self hI.nodup
      by_cases hm : (q.get ⟨i, hi⟩).1 ∈ qkeys ((q.eraseIdx i).drop i)
      · rw [shiftLeft_lookup_mem hitems_nd hm, h1] at hlook'
        cases hlook'
      · rw [shiftLeft_lookup_not_mem hm, h1] at hlook'
        cases hlook'
    · have h1 : dictLookup (dictDel d (q.get ⟨i, hi⟩).1) κ = dictLookup d κ :=
        dictLookup_dictDel_ne hκ
      by_cases hm : κ ∈ qkeys ((q.eraseIdx i).drop i)
      · rw [shiftLeft_lookup_mem hitems_nd hm, h1] at hlook'
        cases hl : dictLookup d κ with
        | none => rw [hl] at hlook'; cases hlook'
        | some pr₀ =>
          rw [hl, Option.map_some'] at hlook'
          injection hlook' with hpr
          obtain ⟨cnt, hq0⟩ := hI.points κ pr₀ hl
          obtain ⟨t, ht⟩ := List.mem_iff_getElem?.mp hm
          rw [qkeys, List.getElem?_map, List.getElem?_drop,
            hq'ge (i + t) (by omega)] at ht
          cases hq1 : q[i + t + 1]? with
          | none => rw [hq1] at ht; cases ht
          | some e1 =>
            rw [hq1, Option.map_some'] at ht
            injection ht with ht1
            have hlt1 : i + t + 1 < q.length := (List.getElem?_eq_some.mp hq1).1
            have hgete : q.get ⟨i + t + 1, hlt1⟩ = e1 := by
              have hg := List.getElem?_eq_getElem hlt1
              rw [hg] at hq1
              injection hq1
            have hkat : pr₀.1 = i + t + 1 :=
              hI.key_at hl hlt1 (by rw [hgete, ht1])
            refine ⟨e1.2, ?_⟩
            rw [← hpr]
            have hidx : pr₀.1 - 1 = i + t := by omega
            rw [hidx, hq'ge (i + t) (by omega), hq1, ← ht1]
      · rw [shiftLeft_lookup_not_mem hm, h1] at hlook'
        obtain ⟨cnt, hq0⟩ := hI.points κ pr hlook'
        have hprlt : pr.1 < q.length := (List.getElem?_eq_some.mp hq0).1
        have hne_i : pr.1 ≠ i := by
          intro hpe
          apply hκ
          rw [hpe] at hq0
          have hg := List.getElem?_eq_getElem hi
          rw [hg] at hq0
          injection hq0 with h2
          simp only [List.get_eq_getElem]
          rw [h2]
        have hnot_gt : ¬ i < pr.1 := by
          intro hgt
          apply hm
          rw [qkeys, List.mem_iff_getElem?]
          refine ⟨pr.1 - 1 - i, ?_⟩
          rw [List.getElem?_map, List.getElem?_drop]
          have harr : i + (pr.1 - 1 - i) = pr.1 - 1 := by omega
          rw [harr, hq'ge (pr.1 - 1) (by omega)]
          have harr2 : pr.1 - 1 + 1 = pr.1 := by omega
          rw [harr2, hq0]
          rfl
        have hprlti : pr.1 < i := by omega
        exact ⟨cnt, by rw [hq'lt pr.1 hprlti]; exact hq0⟩
  · intro e he
    exact hI.pos e (hq'sub.subset he)
  · exact hI.sorted.sublist hq'sub

end LFU

/-! ## Preservation of the invariant by promotion -/

namespace LFU

variable {K V : Type} [DecidableEq K]
variable {d : Dict K V} {q : Queue K} {k κ : K}

theorem DQInv.promote (hI : DQInv d q) {i p cnt : Nat} {v : V}
    (hl : dictLookup d k = some (i, v)) (hq : q[i]? = some (k, cnt))
    (hple : p ≤ i)
    (hwin : ∀ m, p ≤ m → m < i → ∃ e, q[m]? = some e ∧ e.2 < cnt + 1)
    (hstop : 0 < p → ∃ e, q[p - 1]? = some e ∧ cnt + 1 ≤ e.2) :
    DQInv (dictUpdate (bumpFrom d p ((q.take i).drop p)) k fun pr => (p, pr.2))
      (q.take p ++ (k, cnt + 1) :: ((q.take i).drop p) ++ q.drop (i + 1)) := by
  have hilt : i < q.length := (List.getElem?_eq_some.mp hq).1
  have hAlen : (q.take p).length = p := by
    rw [List.length_take]
    omega
  have hwlen : ((q.take i).drop p).length = i - p := by
    simp [List.length_take]
    omega
  have hw_get : ∀ t, t < i - p → ((q.take i).drop p)[t]? = q[p + t]? := by
    intro t ht
    rw [List.getElem?_drop, List.getElem?_take_of_lt (by omega)]
  have hQlen : (q.take p ++ (k, cnt + 1) :: ((q.take i).drop p) ++
      q.drop (i + 1)).length = q.length := by
    simp [List.length_take]
    omega
  have hdropp : q.drop p = ((q.take i).drop p) ++ (k, cnt) :: q.drop (i + 1) := by
    conv_lhs => rw [← List.take_append_drop i q]
    rw [List.drop_append_eq_append_drop]
    have h0 : p - (q.take i).length = 0 := by
      rw [List.length_take]
      omega
    rw [h0, List.drop_zero, drop_eq_cons_of_getElem? hq]
  have hkey_unique : ∀ s (hs : s < q.length), (q.get ⟨s, hs⟩).1 = k → s = i := by
    intro s hs hk
    exact (hI.key_at hl hs hk).symm
  have hknotw : k ∉ qkeys ((q.take i).drop p) := by
    intro hmem
    obtain ⟨t, ht⟩ := List.mem_iff_getElem?.mp hmem
    rw [qkeys, List.getElem?_map] at ht
    cases hwt : ((q.take i).drop p)[t]? with
    | none => rw [hwt] at ht; cases ht
    | some el =>
      rw [hwt, Option.map_some'] at ht
      injection ht with ht1
      have htlen : t < i - p := by
        have := (List.getElem?_eq_some.mp hwt).1
        omega
      rw [hw_get t htlen] at hwt
      have hlt : p + t < q.length := (List.getElem?_eq_some.mp hwt).1
      have hget : q.get ⟨p + t, hlt⟩ = el := by
        have hg := List.getElem?_eq_getElem hlt
        rw [hg] at hwt
        injection hwt
      have := hkey_unique (p + t) hlt (by rw [hget, ht1])
      omega
  have hwnd : (qkeys ((q.take i).drop p)).Nodup :=
    hI.qkeys_nodup.sublist
      (((List.drop_sublist p (q.take i)).trans (List.take_sublist i q)).map
        Prod.fst)
  have hPlen : (q.take p ++ (k, cnt + 1) :: ((q.take i).drop p)).length =
      i + 1 := by
    rw [List.length_append, hAlen, List.length_cons, hwlen]
    omega
  have hQ'lo : ∀ s, s < p →
      (q.take p ++ (k, cnt + 1) :: ((q.take i).drop p) ++
        q.drop (i + 1))[s]? = q[s]? := by
    intro s hs
    rw [List.getElem?_append, if_pos (by rw [hPlen]; omega),
      List.getElem?_append, if_pos (by rw [hAlen]; omega),
      List.getElem?_take_of_lt (by omega)]
  have hQ'p : (q.take p ++ (k, cnt + 1) :: ((q.take i).drop p) ++
      q.drop (i + 1))[p]? = some (k, cnt + 1) := by
    rw [List.getElem?_append, if_pos (by rw [hPlen]; omega),
      List.getElem?_append, if_neg (by rw [hAlen]; omega), hAlen,
      Nat.sub_self, List.getElem?_cons_zero]
  have hQ'mid : ∀ t, t < i - p →
      (q.take p ++ (k, cnt + 1) :: ((q.take i).drop p) ++
        q.drop (i + 1))[p + t + 1]? = q[p + t]? := by
    intro t ht
    rw [List.getElem?_append, if_pos (by rw [hPlen]; omega),
      List.getElem?_append, if_neg (by rw [hAlen]; omega), hAlen]
    have hidx : p + t + 1 - p = t + 1 := by omega
    rw [hidx, List.getElem?_cons_succ, hw_get t ht]
  have hQ'hi : ∀ s, i < s →
      (q.take p ++ (k, cnt + 1) :: ((q.take i).drop p) ++
        q.drop (i + 1))[s]? = q[s]? := by
    intro s hs
    rw [List.getElem?_append, if_neg (by rw [hPlen]; omega), hPlen,
      List.getElem?_drop]
    congr 1
    omega
  constructor
  · rw [length_dictUpdate, length_bumpFrom, hI.len_eq, hQlen]
  · rw [dkeys_dictUpdate, dkeys_bumpFrom]
    exact hI.nodup
  · intro κ pr hlook'
    by_cases hκ : κ = k
    · subst hκ
      rw [dictLookup_dictUpdate_self, bumpFrom_lookup_not_mem hknotw, hl,
        Option.map_some'] at hlook'
      injection hlook' with hpr
      refine ⟨cnt + 1, ?_⟩
      rw [← hpr]
      exact hQ'p
    · rw [dictLookup_dictUpdate_ne hκ] at hlook'
      by_cases hm : κ ∈ qkeys ((q.take i).drop p)
      · obtain ⟨t, ht⟩ := List.mem_iff_getElem?.mp hm
        rw [qkeys, List.getElem?_map] at ht
        cases hwt : ((q.take i).drop p)[t]? with
        | none => rw [hwt] at ht; cases ht
        | some el =>
          rw [hwt, Option.map_some'] at ht
          injection ht with ht1
          have htlen : t < i - p := by
            have := (List.getElem?_eq_some.mp hwt).1
            omega
          rw [bumpFrom_lookup_get hwnd hwt ht1] at hlook'
          cases hl0 : dictLookup d κ with
          | none => rw [hl0] at hlook'; cases hlook'
          | some pr₀ =>
            rw [hl0, Option.map_some'] at hlook'
            injection hlook' with hpr
            rw [hw_get t htlen] at hwt
            have hpr1 : pr.1 = p + t + 1 := by rw [← hpr]
            refine ⟨el.2, ?_⟩
            rw [hpr1, hQ'mid t htlen, hwt, ← ht1]
      · rw [bumpFrom_lookup_not_mem hm] at hlook'
        obtain ⟨cnt₀, hq0⟩ := hI.points κ pr hlook'
        have hprlt : pr.1 < q.length := (List.getElem?_eq_some.mp hq0).1
        have hne_i : pr.1 ≠ i := by
          intro hpe
          apply hκ
          rw [hpe] at hq0
          have hg := List.getElem?_eq_getElem hilt
          rw [hg] at hq
          rw [hg] at hq0
          injection hq with hq'
          injection hq0 with hq0'
          have hcomb : ((k, cnt) : K × Nat) = (κ, cnt₀) := by
            rw [← hq']
            exact hq0'
          injection hcomb with h2
          exact h2.symm
        have hnot_mid : ¬ (p ≤ pr.1 ∧ pr.1 < i) := by
          rintro ⟨h1, h2⟩
          apply hm
          rw [qkeys, List.mem_iff_getElem?]
          refine ⟨pr.1 - p, ?_⟩
          rw [List.getElem?_map, hw_get (pr.1 - p) (by omega)]
          have hidx : p + (pr.1 - p) = pr.1 := by omega
          rw [hidx, hq0]
          rfl
        by_cases hlo : pr.1 < p
        · exact ⟨cnt₀, by rw [hQ'lo pr.1 hlo]; exact hq0⟩
        · have hhi : i < pr.1 := by omega
          exact ⟨cnt₀, by rw [hQ'hi pr.1 hhi]; exact hq0⟩
  · intro e he
    rcases List.mem_append.mp he with h1 | h1
    · rcases List.mem_append.mp h1 with h2 | h2
      · exact hI.pos e (List.take_subset p q h2)
      · rcases List.mem_cons.mp h2 with h3 | h3
        · rw [h3]
          omega
        · exact hI.pos e
            (List.take_subset i q (List.drop_subset p (q.take i) h3))
    · exact hI.pos e (List.drop_subset (i + 1) q h1)
  · -- sortedness
    have hA_ge : ∀ a ∈ q.take p, cnt + 1 ≤ a.2 := by
      intro a ha
      obtain ⟨s, hs⟩ := List.mem_iff_getElem?.mp ha
      have hsp : s < p := by
        by_contra hge
        rw [List.getElem?_take, if_neg hge] at hs
        cases hs
      rw [List.getElem?_take_of_lt hsp] at hs
      obtain ⟨estop, hqe, hcnt⟩ := hstop (by omega)
      have hslt : s < q.length := (List.getElem?_eq_some.mp hs).1
      have hplt : p - 1 < q.length := (List.getElem?_eq_some.mp hqe).1
      have hga : q.get ⟨s, hslt⟩ = a := by
        have hg := List.getElem?_eq_getElem hslt
        rw [hg] at hs
        injection hs
      have hge' : q.get ⟨p - 1, hplt⟩ = estop := by
        have hg := List.getElem?_eq_getElem hplt
        rw [hg] at hqe
        injection hqe
      simp only [List.get_eq_getElem] at hga hge'
      by_cases hsp1 : s = p - 1
      · subst hsp1
        have haeq : a = estop := by
          rw [← hga]
          exact hge'
        rw [haeq]
        exact hcnt
      · have hlt2 : s < p - 1 := by omega
        have hp := List.pairwise_iff_getElem.mp hI.sorted s (p - 1) hslt hplt hlt2
        rw [hga, hge'] at hp
        omega
    have hw_lt : ∀ b ∈ (q.take i).drop p, b.2 < cnt + 1 := by
      intro b hb
      obtain ⟨t, ht'⟩ := List.mem_iff_getElem?.mp hb
      have htlen : t < i - p := by
        have := (List.getElem?_eq_some.mp ht').1
        omega
      rw [hw_get t htlen] at ht'
      obtain ⟨e0, he0, hlt0⟩ := hwin (p + t) (by omega) (by omega)
      rw [he0] at ht'
      injection ht' with ht1
      rw [← ht1]
      exact hlt0
    have hT_le : ∀ b ∈ q.drop (i + 1), b.2 ≤ cnt := by
      intro b hb
      obtain ⟨t, ht'⟩ := List.mem_iff_getElem?.mp hb
      rw [List.getElem?_drop] at ht'
      have hblt : i + 1 + t < q.length := (List.getElem?_eq_some.mp ht').1
      have hgb : q.get ⟨i + 1 + t, hblt⟩ = b := by
        have hg := List.getElem?_eq_getElem hblt
        rw [hg] at ht'
        injection ht'
      have hgi : q.get ⟨i, hilt⟩ = (k, cnt) := by
        have hg := List.getElem?_eq_getElem hilt
        rw [hg] at hq
        injection hq
      simp only [List.get_eq_getElem] at hgb hgi
      have hp := List.pairwise_iff_getElem.mp hI.sorted i (i + 1 + t) hilt hblt
        (by omega)
      rw [hgb, hgi] at hp
      exact hp
    have hBq : List.Sublist ((q.take i).drop p ++ q.drop (i + 1)) q := by
      have h1 : List.Sublist ((q.take i).drop p ++ q.drop (i + 1)) (q.drop p) := by
        rw [hdropp]
        exact List.Sublist.append_left (List.sublist_cons_self _ _) _
      exact h1.trans (List.drop_sublist p q)
    have hcross : ∀ a ∈ q.take p, ∀ b ∈ q.drop p, b.2 ≤ a.2 := by
      have hx : List.Pairwise (fun a b => b.2 ≤ a.2) (q.take p ++ q.drop p) := by
        rw [List.take_append_drop p q]
        exact hI.sorted
      exact (List.pairwise_append.mp hx).2.2
    have hdp : List.Pairwise (fun a b => b.2 ≤ a.2)
        (((q.take i).drop p) ++ (k, cnt) :: q.drop (i + 1)) := by
      rw [← hdropp]
      exact hI.sorted.sublist (List.drop_sublist p q)
    have hwcross := (List.pairwise_append.mp hdp).2.2
    rw [List.pairwise_append]
    refine ⟨?_, hI.sorted.sublist (List.drop_sublist (i + 1) q), ?_⟩
    · rw [List.pairwise_append]
      refine ⟨hI.sorted.sublist (List.take_sublist p q), ?_, ?_⟩
      · rw [List.pairwise_cons]
        refine ⟨fun b hb => le_of_lt (hw_lt b hb), ?_⟩
        exact hI.sorted.sublist
          ((List.drop_sublist p (q.take i)).trans (List.take_sublist i q))
      · intro a ha b hb
        rcases List.mem_cons.mp hb with hb1 | hb2
        · rw [hb1]
          exact hA_ge a ha
        · refine hcross a ha b ?_
          rw [hdropp]
          exact List.mem_append_left _ hb2
    · intro a ha b hb
      have hbcnt : b.2 ≤ cnt := hT_le b hb
      rcases List.mem_append.mp ha with ha1 | ha2
      · refine hcross a ha1 b ?_
        rw [hdropp]
        exact List.mem_append_right _ (List.mem_cons_of_mem _ hb)
      · rcases List.mem_cons.mp ha2 with ha3 | ha4
        · rw [ha3]
          exact le_trans hbcnt (Nat.le_succ cnt)
        · exact hwcross a ha4 b (List.mem_cons_of_mem _ hb)

end LFU

/-! ## `_increment_access_count` at the cache level -/

namespace LFU

variable {K V : Type} [DecidableEq K]
variable {k : K}

theorem increment_eq {c : LFUCache K V} {pr : Nat × V} {cnt : Nat}
    (hl : dictLookup c.cache_entries k = some pr)
    (hq : c.priority_queue[pr.1]? = some (k, cnt))
    (hnd : ((c.priority_queue.take pr.1).map Prod.fst).Nodup) :
    c.increment_access_count k =
      { c with
        cache_entries :=
          dictUpdate
            (bumpFrom c.cache_entries
              (finalPos (c.priority_queue.set pr.1 (k, cnt + 1)) (cnt + 1) pr.1)
              ((c.priority_queue.take pr.1).drop
                (finalPos (c.priority_queue.set pr.1 (k, cnt + 1)) (cnt + 1)
                  pr.1)))
            k fun x =>
              (finalPos (c.priority_queue.set pr.1 (k, cnt + 1)) (cnt + 1) pr.1,
                x.2),
        priority_queue :=
          c.priority_queue.take
              (finalPos (c.priority_queue.set pr.1 (k, cnt + 1)) (cnt + 1)
                pr.1) ++
            (k, cnt + 1) ::
              ((c.priority_queue.take pr.1).drop
                (finalPos (c.priority_queue.set pr.1 (k, cnt + 1)) (cnt + 1)
                  pr.1)) ++
              c.priority_queue.drop (pr.1 + 1) } := by
  have hilt : pr.1 < c.priority_queue.length := (List.getElem?_eq_some.mp hq).1
  have hq1 : (c.priority_queue.set pr.1 (k, cnt + 1))[pr.1]? =
      some (k, cnt + 1) := List.getElem?_set_eq_of_lt _ hilt
  have htknd : (((c.priority_queue.set pr.1 (k, cnt + 1)).take pr.1).map
      Prod.fst).Nodup := by
    rw [take_set_of_le (le_refl _)]
    exact hnd
  have hspec := bubble_spec pr.1 c.cache_entries
    (c.priority_queue.set pr.1 (k, cnt + 1)) (k, cnt + 1) hq1 htknd
  simp only [LFUCache.increment_access_count, hl, hq, hspec]
  rw [take_set_of_le (le_refl pr.1),
    take_set_of_le (finalPos_le :
      finalPos (c.priority_queue.set pr.1 (k, cnt + 1)) (cnt + 1) pr.1 ≤ pr.1),
    drop_set_of_lt (Nat.lt_succ_self pr.1)]

theorem increment_inv {c : LFUCache K V}
    (hI : DQInv c.cache_entries c.priority_queue) (k : K) :
    DQInv (c.increment_access_count k).cache_entries
        (c.increment_access_count k).priority_queue ∧
      (c.increment_access_count k).priority_queue.length =
        c.priority_queue.length ∧
      (c.increment_access_count k).limit = c.limit ∧
      (c.increment_access_count k).hits = c.hits ∧
      (c.increment_access_count k).misses = c.misses := by
  cases hl : dictLookup c.cache_entries k with
  | none =>
    simp only [LFUCache.increment_access_count, hl]
    exact ⟨hI, trivial, trivial, trivial, trivial⟩
  | some pr =>
    obtain ⟨cnt, hq⟩ := hI.points k pr hl
    have hilt : pr.1 < c.priority_queue.length :=
      (List.getElem?_eq_some.mp hq).1
    have hnd : ((c.priority_queue.take pr.1).map Prod.fst).Nodup := by
      rw [List.map_take]
      exact hI.qkeys_nodup.sublist
        (List.take_sublist pr.1 (c.priority_queue.map Prod.fst))
    rw [increment_eq hl hq hnd]
    have hple : finalPos (c.priority_queue.set pr.1 (k, cnt + 1)) (cnt + 1)
        pr.1 ≤ pr.1 := finalPos_le
    have hwin : ∀ m,
        finalPos (c.priority_queue.set pr.1 (k, cnt + 1)) (cnt + 1) pr.1 ≤ m →
        m < pr.1 → ∃ e, c.priority_queue[m]? = some e ∧ e.2 < cnt + 1 := by
      intro m h1 h2
      obtain ⟨e, he, hlt⟩ := finalPos_window h1 h2
      rw [List.getElem?_set_ne (by omega : pr.1 ≠ m)] at he
      exact ⟨e, he, hlt⟩
    have hstop : 0 < finalPos (c.priority_queue.set pr.1 (k, cnt + 1))
        (cnt + 1) pr.1 →
        ∃ e, c.priority_queue[finalPos (c.priority_queue.set pr.1 (k, cnt + 1))
            (cnt + 1) pr.1 - 1]? = some e ∧ cnt + 1 ≤ e.2 := by
      intro hP
      obtain ⟨e, he, hge⟩ := finalPos_stop
        (by rw [List.length_set]; omega) hP
      rw [List.getElem?_set_ne (by omega : pr.1 ≠ _)] at he
      exact ⟨e, he, hge⟩
    refine ⟨hI.promote hl hq hple hwin hstop, ?_, rfl, rfl, rfl⟩
    simp [List.length_take]
    omega

end LFU

/-! ## Insertion, value update and truncation -/

namespace LFU

variable {K V : Type} [DecidableEq K]
variable {d : Dict K V} {q : Queue K} {k κ : K} {v : V}

theorem DQInv.insertNew (hI : DQInv d q) (hk : k ∉ dkeys d) :
    DQInv (dictSet d k (q.length, v)) (q ++ [(k, 1)]) := by
  rw [dictSet_of_not_mem hk]
  constructor
  · simp [hI.len_eq]
  · rw [dkeys, List.map_append, List.nodup_append]
    refine ⟨hI.nodup, by simp, ?_⟩
    intro a ha hb
    simp only [dkeys, List.map_cons, List.map_nil, List.mem_singleton] at hb
    exact hk (by rwa [hb] at ha)
  · intro κ pr hlook
    rw [dictLookup_append] at hlook
    cases hl : dictLookup d κ with
    | some pr₀ =>
      rw [hl] at hlook
      simp only [Option.or_some] at hlook
      injection hlook with hpr
      subst hpr
      obtain ⟨cnt, hq0⟩ := hI.points κ pr₀ hl
      have hlt : pr₀.1 < q.length := (List.getElem?_eq_some.mp hq0).1
      exact ⟨cnt, by rw [List.getElem?_append, if_pos hlt]; exact hq0⟩
    | none =>
      rw [hl] at hlook
      simp only [Option.none_or] at hlook
      simp only [dictLookup] at hlook
      by_cases hκ : k = κ
      · rw [if_pos hκ] at hlook
        injection hlook with hpr
        subst hpr
        subst hκ
        refine ⟨1, ?_⟩
        rw [List.getElem?_append, if_neg (by omega), Nat.sub_self]
        rfl
      · rw [if_neg hκ] at hlook
        cases hlook
  · intro e he
    rcases List.mem_append.mp he with h1 | h1
    · exact hI.pos e h1
    · rw [List.mem_singleton] at h1
      rw [h1]
  · rw [List.pairwise_append]
    refine ⟨hI.sorted, by simp, ?_⟩
    intro a ha b hb
    rw [List.mem_singleton] at hb
    rw [hb]
    exact hI.pos a ha

theorem DQInv.setValue (hI : DQInv d q) :
    DQInv (dictUpdate d k fun p => (p.1, v)) q := by
  constructor
  · rw [length_dictUpdate]
    exact hI.len_eq
  · rw [dkeys_dictUpdate]
    exact hI.nodup
  · intro κ pr hlook
    by_cases hκ : κ = k
    · subst hκ
      rw [dictLookup_dictUpdate_self] at hlook
      cases hl : dictLookup d κ with
      | none => rw [hl] at hlook; cases hlook
      | some pr₀ =>
        rw [hl, Option.map_some'] at hlook
        injection hlook with hpr
        obtain ⟨cnt, hq0⟩ := hI.points κ pr₀ hl
        refine ⟨cnt, ?_⟩
        rw [← hpr]
        exact hq0
    · rw [dictLookup_dictUpdate_ne hκ] at hlook
      exact hI.points κ pr hlook
  · exact hI.pos
  · exact hI.sorted

theorem truncate_inv (m : Nat) :
    ∀ (d : Dict K V) (q : Queue K), DQInv d q →
      DQInv (truncate d q m).1 (truncate d q m).2 ∧
        (truncate d q m).2 = q.take (q.length - m) := by
  induction m with
  | zero =>
    intro d q hI
    rw [truncate]
    exact ⟨hI, by rw [Nat.sub_zero, List.take_length]⟩
  | succ n ih =>
    intro d q hI
    cases hlast : q.getLast? with
    | none =>
      rw [truncate, hlast]
      have hq : q = [] := by
        cases q with
        | nil => rfl
        | cons a l => simp [List.getLast?_eq_getElem?] at hlast
      subst hq
      exact ⟨hI, by simp⟩
    | some item =>
      rw [truncate, hlast]
      have hne : q ≠ [] := by
        intro hq
        subst hq
        simp at hlast
      have hlen : 0 < q.length := List.length_pos.mpr hne
      have hit : q[q.length - 1]? = some item := by
        rw [← List.getLast?_eq_getElem?]
        exact hlast
      have hitget : (q.get ⟨q.length - 1, by omega⟩) = item := by
        have hg := List.getElem?_eq_getElem (show q.length - 1 < q.length by omega)
        rw [hg] at hit
        injection hit
      have herase : q.eraseIdx (q.length - 1) = q.dropLast := by
        rw [List.eraseIdx_eq_take_drop_succ, List.dropLast_eq_take]
        have : q.length - 1 + 1 = q.length := by omega
        rw [this, List.drop_length, List.append_nil]
      have hshift : shiftLeft (dictDel d item.1)
          ((q.eraseIdx (q.length - 1)).drop (q.length - 1)) =
          dictDel d item.1 := by
        have hnil : (q.eraseIdx (q.length - 1)).drop (q.length - 1) = [] := by
          apply List.drop_eq_nil_of_le
          rw [List.length_eraseIdx, if_pos (by omega)]
        rw [hnil]
        rfl
      have hrm := hI.removeAt (show q.length - 1 < q.length by omega)
      rw [hitget, hshift, herase] at hrm
      obtain ⟨hdq, htk⟩ := ih (dictDel d item.1) q.dropLast hrm
      refine ⟨hdq, ?_⟩
      rw [htk, List.dropLast_eq_take, List.take_take, List.length_take]
      congr 1
      omega

end LFU

/-! ## Invariant preservation by each public operation -/

namespace LFU

variable {K V : Type} [DecidableEq K]

theorem clear_inv {c : LFUCache K V} (hI : Inv c) : Inv c.clear := by
  refine ⟨⟨rfl, List.nodup_nil, ?_, ?_, List.Pairwise.nil⟩, ?_⟩
  · intro κ pr h
    simp [dictLookup] at h
  · intro e he
    simp [LFUCache.clear] at he
  · intro n hn
    simp [LFUCache.clear]

theorem setLimit_inv {c : LFUCache K V} (hI : Inv c) (l : LimitArg) :
    Inv (c.setLimit l).1 := by
  cases l with
  | nonelit =>
    refine ⟨hI.dq, ?_⟩
    intro n hn
    simp [LFUCache.setLimit] at hn
  | nonint => exact hI
  | int n =>
    by_cases hn : n < 0
    · simp only [LFUCache.setLimit, if_pos hn]
      exact hI
    · simp only [LFUCache.setLimit, if_neg hn]
      obtain ⟨hdq, htk⟩ := truncate_inv
        (c.priority_queue.length - n.toNat) c.cache_entries c.priority_queue
        hI.dq
      refine ⟨hdq, ?_⟩
      intro m hm
      have hm' : n.toNat = m := by
        injection hm
      rw [htk]
      simp [List.length_take]
      omega

theorem remove_inv {c : LFUCache K V} (hI : Inv c) (k : K) :
    Inv (c.remove k).1 := by
  cases hl : dictLookup c.cache_entries k with
  | none =>
    simp only [LFUCache.remove, hl]
    exact hI
  | some pr =>
    obtain ⟨cnt, hq⟩ := hI.dq.points k pr hl
    have hilt : pr.1 < c.priority_queue.length :=
      (List.getElem?_eq_some.mp hq).1
    have hkey : (c.priority_queue.get ⟨pr.1, hilt⟩).1 = k := by
      have hg := List.getElem?_eq_getElem hilt
      rw [hg] at hq
      injection hq with h2
      simp only [List.get_eq_getElem]
      rw [h2]
    have hrm := hI.dq.removeAt hilt
    rw [hkey] at hrm
    simp only [LFUCache.remove, hl]
    refine ⟨hrm, ?_⟩
    intro n hn
    have hcap := hI.cap n hn
    rw [List.length_eraseIdx, if_pos hilt]
    omega

theorem remove_by_id_inv {c : LFUCache K V} (hI : Inv c) (qid : Nat) :
    Inv (c.remove_by_id qid).1 := by
  cases hq : c.priority_queue[qid]? with
  | none =>
    simp only [LFUCache.remove_by_id, hq]
    exact hI
  | some entry =>
    have hilt : qid < c.priority_queue.length :=
      (List.getElem?_eq_some.mp hq).1
    have hget : c.priority_queue.get ⟨qid, hilt⟩ = entry := by
      have hg := List.getElem?_eq_getElem hilt
      rw [hg] at hq
      injection hq
    have hrm := hI.dq.removeAt hilt
    rw [hget] at hrm
    simp only [LFUCache.remove_by_id, hq]
    refine ⟨hrm, ?_⟩
    intro n hn
    have hcap := hI.cap n hn
    rw [List.length_eraseIdx, if_pos hilt]
    omega

theorem get_inv {c : LFUCache K V} (hI : Inv c) (k : K) (dv : V) :
    Inv (c.get k dv).1 := by
  by_cases hh : c.has_cache k
  · obtain ⟨hdq, hlen, hlim, h1, h2⟩ :=
      increment_inv (c := { c with hits := c.hits + 1 }) hI.dq k
    simp only [LFUCache.get, hh, not_true, if_neg, not_false_iff]
    cases hl2 : dictLookup
        (LFUCache.increment_access_count { c with hits := c.hits + 1 }
          k).cache_entries k with
    | some pr =>
      refine ⟨hdq, ?_⟩
      intro n hn
      rw [hlim] at hn
      rw [hlen]
      exact hI.cap n hn
    | none =>
      refine ⟨hdq, ?_⟩
      intro n hn
      rw [hlim] at hn
      rw [hlen]
      exact hI.cap n hn
  · simp only [LFUCache.get, hh]
    exact hI

end LFU

namespace LFU

variable {K V : Type} [DecidableEq K]

theorem add_limit0 {c : LFUCache K V} {k : K} {v : V} {u : Bool}
    (h : c.limit = some 0) : c.add k v u = (c, false) := by
  simp [LFUCache.add, h]

theorem add_present_noupdate {c : LFUCache K V} {k : K} {v : V}
    (h : c.has_cache k = true) (h0 : c.limit ≠ some 0) :
    c.add k v false = (c, false) := by
  simp [LFUCache.add, h, h0]

theorem add_present_update {c : LFUCache K V} {k : K} {v : V}
    (h : c.has_cache k = true) (h0 : c.limit ≠ some 0) :
    c.add k v true =
      ({ c.increment_access_count k with
          cache_entries :=
            dictUpdate (c.increment_access_count k).cache_entries k
              fun p => (p.1, v),
          misses := (c.increment_access_count k).misses + 1 }, true) := by
  simp [LFUCache.add, h, h0]

theorem add_new_nolimit {c : LFUCache K V} {k : K} {v : V} {u : Bool}
    (h : c.has_cache k = false) (hlim : c.limit = none) :
    c.add k v u =
      ({ c with
          cache_entries :=
            dictSet c.cache_entries k (c.priority_queue.length, v),
          priority_queue := c.priority_queue ++ [(k, 1)],
          misses := c.misses + 1 }, true) := by
  simp [LFUCache.add, h, hlim, LFUCache.len]

theorem add_new_room {c : LFUCache K V} {k : K} {v : V} {u : Bool} {l : Nat}
    (h : c.has_cache k = false) (hlim : c.limit = some l) (h0 : l ≠ 0)
    (hcap : ¬ l ≤ c.priority_queue.length) :
    c.add k v u =
      ({ c with
          cache_entries :=
            dictSet c.cache_entries k (c.priority_queue.length, v),
          priority_queue := c.priority_queue ++ [(k, 1)],
          misses := c.misses + 1 }, true) := by
  simp [LFUCache.add, h, hlim, LFUCache.len, hcap, h0]

theorem add_new_evict {c : LFUCache K V} {k : K} {v : V} {u : Bool} {l : Nat}
    (h : c.has_cache k = false) (hlim : c.limit = some l) (h0 : l ≠ 0)
    (hcap : l ≤ c.priority_queue.length) :
    c.add k v u =
      ({ (c.remove_by_id (l - 1)).1 with
          cache_entries :=
            dictSet (c.remove_by_id (l - 1)).1.cache_entries k
              (c.priority_queue.length - 1, v),
          priority_queue :=
            (c.remove_by_id (l - 1)).1.priority_queue ++ [(k, 1)],
          misses := (c.remove_by_id (l - 1)).1.misses + 1 }, true) := by
  simp [LFUCache.add, h, hlim, LFUCache.len, hcap, h0]

theorem add_inv {c : LFUCache K V} (hI : Inv c) (k : K) (v : V) (u : Bool) :
    Inv (c.add k v u).1 := by
  by_cases h0 : c.limit = some 0
  · rw [add_limit0 h0]
    exact hI
  · by_cases hh : c.has_cache k
    · cases u with
      | false =>
        rw [add_present_noupdate hh h0]
        exact hI
      | true =>
        rw [add_present_update hh h0]
        obtain ⟨hdq1, hlen1, hlim1, h1, h2⟩ := increment_inv hI.dq k
        refine ⟨hdq1.setValue, ?_⟩
        intro n hn
        have hn' : c.limit = some n := by rw [← hlim1]; exact hn
        rw [hlen1]
        exact hI.cap n hn'
    · have hhf : c.has_cache k = false := by
        cases hcb : c.has_cache k with
        | true => exact absurd hcb hh
        | false => rfl
      have hknotin : k ∉ dkeys c.cache_entries := by
        rw [← dictLookup_isSome_iff]
        simp only [LFUCache.has_cache] at hhf
        simp [hhf]
      cases hlim : c.limit with
      | none =>
        rw [add_new_nolimit hhf hlim]
        refine ⟨hI.dq.insertNew hknotin, ?_⟩
        intro n hn
        rw [hlim] at hn
        cases hn
      | some l =>
        have hl0 : l ≠ 0 := by
          intro h
          apply h0
          rw [hlim, h]
        by_cases hcap : l ≤ c.priority_queue.length
        · rw [add_new_evict hhf hlim hl0 hcap]
          have hlen_eq : c.priority_queue.length = l :=
            le_antisymm (hI.cap l hlim) hcap
          have hlt : l - 1 < c.priority_queue.length := by omega
          have hentry : c.priority_queue[l - 1]? =
              some (c.priority_queue.get ⟨l - 1, hlt⟩) :=
            List.getElem?_eq_getElem hlt
          have hC1 : (c.remove_by_id (l - 1)).1 =
              { c with
                cache_entries := shiftLeft
                  (dictDel c.cache_entries (c.priority_queue.get ⟨l - 1, hlt⟩).1)
                  ((c.priority_queue.eraseIdx (l - 1)).drop (l - 1)),
                priority_queue := c.priority_queue.eraseIdx (l - 1) } := by
            simp only [LFUCache.remove_by_id, hentry]
          rw [hC1]
          have hrm := hI.dq.removeAt hlt
          have herlen : (c.priority_queue.eraseIdx (l - 1)).length = l - 1 := by
            rw [List.length_eraseIdx, if_pos hlt]
            omega
          have hknotin1 : k ∉ dkeys (shiftLeft
              (dictDel c.cache_entries (c.priority_queue.get ⟨l - 1, hlt⟩).1)
              ((c.priority_queue.eraseIdx (l - 1)).drop (l - 1))) := by
            rw [dkeys_shiftLeft, dkeys_dictDel]
            intro hmem
            exact hknotin (List.mem_of_mem_erase hmem)
          have hins := hrm.insertNew (v := v) (k := k) hknotin1
          rw [herlen] at hins
          have hqlen : c.priority_queue.length - 1 = l - 1 := by omega
          refine ⟨by rw [hqlen]; exact hins, ?_⟩
          intro n hn
          have hn' : l = n := by
            rw [hlim] at hn
            injection hn
          simp only [List.length_append, herlen, List.length_cons,
            List.length_nil]
          omega
        · rw [add_new_room hhf hlim hl0 hcap]
          refine ⟨hI.dq.insertNew hknotin, ?_⟩
          intro n hn
          have hn' : l = n := by
            rw [hlim] at hn
            injection hn
          simp only [List.length_append, List.length_cons, List.length_nil]
          omega

theorem step_inv {c : LFUCache K V} (hI : Inv c) (op : Op K V) :
    Inv (step c op) := by
  cases op with
  | add k v u => exact add_inv hI k v u
  | get k dv => exact get_inv hI k dv
  | remove k => exact remove_inv hI k
  | clear => exact clear_inv hI
  | setLimit l => exact setLimit_inv hI l

theorem run_inv {c : LFUCache K V} (hI : Inv c) (ops : List (Op K V)) :
    Inv (run c ops) := by
  induction ops generalizing c with
  | nil => exact hI
  | cons op rest ih => exact ih (step_inv hI op)

theorem init_inv {l : LimitArg} {c : LFUCache K V} (h : init l = some c) :
    Inv c := by
  have hbase : ∀ lim : Option Nat,
      Inv (⟨lim, [], [], 0, 0⟩ : LFUCache K V) := by
    intro lim
    refine ⟨⟨rfl, List.nodup_nil, ?_, ?_, List.Pairwise.nil⟩, ?_⟩
    · intro κ pr hl
      simp [dictLookup] at hl
    · intro e he
      simp at he
    · intro n hn
      simp
  cases l with
  | nonelit =>
    simp only [init] at h
    injection h with h
    rw [← h]
    exact hbase none
  | int n =>
    simp only [init] at h
    by_cases hn : n < 0
    · rw [if_pos hn] at h
      cases h
    · rw [if_neg hn] at h
      injection h with h
      rw [← h]
      exact hbase (some n.toNat)
  | nonint =>
    simp [init] at h

end LFU

/-! ## Frame facts and further equations -/

namespace LFU

variable {K V : Type} [DecidableEq K]

theorem eraseIdx_last {α : Type} (l : List α) :
    l.eraseIdx (l.length - 1) = l.dropLast := by
  rw [List.eraseIdx_eq_take_drop_succ, List.dropLast_eq_take]
  cases l with
  | nil => rfl
  | cons a t =>
    have : (a :: t).length - 1 + 1 = (a :: t).length := by simp
    rw [this, List.drop_length, List.append_nil]

theorem dictLookup_dictSet_self {d : Dict K V} {k : K} {pr : Nat × V} :
    dictLookup (dictSet d k pr) k = some pr := by
  induction d with
  | nil => simp [dictSet, dictLookup]
  | cons e rest ih =>
    by_cases h : e.1 = k
    · simp [dictSet, dictLookup, h]
    · simp [dictSet, dictLookup, h, ih]

theorem increment_frame (c : LFUCache K V) (k : K) :
    (c.increment_access_count k).limit = c.limit ∧
      (c.increment_access_count k).hits = c.hits ∧
      (c.increment_access_count k).misses = c.misses := by
  cases hl : dictLookup c.cache_entries k with
  | none => simp [LFUCache.increment_access_count, hl]
  | some pr => simp [LFUCache.increment_access_count, hl]

theorem remove_by_id_frame (c : LFUCache K V) (qid : Nat) :
    (c.remove_by_id qid).1.limit = c.limit ∧
      (c.remove_by_id qid).1.hits = c.hits ∧
      (c.remove_by_id qid).1.misses = c.misses := by
  cases hq : c.priority_queue[qid]? with
  | none => simp [LFUCache.remove_by_id, hq]
  | some entry => simp [LFUCache.remove_by_id, hq]

theorem qkeys_take (q : Queue K) (m : Nat) :
    qkeys (q.take m) = (qkeys q).take m := by
  simp [qkeys, List.map_take]

theorem not_mem_qkeys_lookup {d : Dict K V} {q : Queue K} (hI : DQInv d q)
    {κ : K} (h : κ ∉ qkeys q) : dictLookup d κ = none := by
  cases hl : dictLookup d κ with
  | none => rfl
  | some pr =>
    obtain ⟨cnt, hq0⟩ := hI.points κ pr hl
    exfalso
    apply h
    rw [qkeys, List.mem_iff_getElem?]
    exact ⟨pr.1, by rw [List.getElem?_map, hq0]; rfl⟩

theorem last_key_not_in_kept {q : Queue K} (hnd : (qkeys q).Nodup)
    {m : Nat} (hm : m ≤ q.length - 1) {item : K × Nat}
    (hit : q[q.length - 1]? = some item) : item.1 ∉ qkeys (q.take m) := by
  intro hmem
  rw [qkeys_take] at hmem
  obtain ⟨s, hs⟩ := List.mem_iff_getElem?.mp hmem
  have hslen : s < m := by
    have := (List.getElem?_eq_some.mp hs).1
    simp [List.length_take] at this
    omega
  rw [List.getElem?_take_of_lt hslen] at hs
  have hlen1 : q.length - 1 < q.length := (List.getElem?_eq_some.mp hit).1
  have hslt : s < q.length := by omega
  have hkeyq2 : (qkeys q)[q.length - 1]? = some item.1 := by
    rw [qkeys, List.getElem?_map, hit]
    rfl
  have hnodup := List.pairwise_iff_getElem.mp hnd
  obtain ⟨hs1, hs2⟩ := List.getElem?_eq_some.mp hs
  obtain ⟨ht1, ht2⟩ := List.getElem?_eq_some.mp hkeyq2
  have := hnodup s (q.length - 1) hs1 ht1 (by omega)
  rw [hs2, ht2] at this
  exact this rfl

theorem truncate_lookup (m : Nat) :
    ∀ (d : Dict K V) (q : Queue K), DQInv d q → ∀ κ : K,
      dictLookup (truncate d q m).1 κ =
        if κ ∈ qkeys (q.take (q.length - m)) then dictLookup d κ
        else none := by
  induction m with
  | zero =>
    intro d q hI κ
    rw [truncate, Nat.sub_zero, List.take_length]
    by_cases hm : κ ∈ qkeys q
    · rw [if_pos hm]
    · rw [if_neg hm]
      exact not_mem_qkeys_lookup hI hm
  | succ n ih =>
    intro d q hI κ
    cases hlast : q.getLast? with
    | none =>
      have hq : q = [] := by
        cases q with
        | nil => rfl
        | cons a l => simp [List.getLast?_eq_getElem?] at hlast
      subst hq
      rw [truncate, hlast]
      simp only [List.take_nil, qkeys, List.map_nil, List.not_mem_nil,
        if_false]
      exact not_mem_qkeys_lookup hI (by simp [qkeys])
    | some item =>
      rw [truncate, hlast]
      have hne : q ≠ [] := by
        intro hq
        subst hq
        simp at hlast
      have hlen : 0 < q.length := List.length_pos.mpr hne
      have hit : q[q.length - 1]? = some item := by
        rw [← List.getLast?_eq_getElem?]
        exact hlast
      have hitget : (q.get ⟨q.length - 1, by omega⟩) = item := by
        have hg := List.getElem?_eq_getElem (show q.length - 1 < q.length by omega)
        rw [hg] at hit
        injection hit
      have hshift : shiftLeft (dictDel d item.1)
          ((q.eraseIdx (q.length - 1)).drop (q.length - 1)) =
          dictDel d item.1 := by
        have hnil : (q.eraseIdx (q.length - 1)).drop (q.length - 1) = [] := by
          apply List.drop_eq_nil_of_le
          rw [List.length_eraseIdx, if_pos (by omega)]
        rw [hnil]
        rfl
      have hrm := hI.removeAt (show q.length - 1 < q.length by omega)
      rw [hitget, hshift, eraseIdx_last] at hrm
      rw [ih (dictDel d item.1) q.dropLast hrm κ]
      have hkept : q.dropLast.take (q.dropLast.length - n) =
          q.take (q.length - (n + 1)) := by
        rw [List.dropLast_eq_take, List.take_take, List.length_take]
        congr 1
        omega
      rw [hkept]
      by_cases hmem : κ ∈ qkeys (q.take (q.length - (n + 1)))
      · rw [if_pos hmem, if_pos hmem]
        apply dictLookup_dictDel_ne
        intro hκ
        subst hκ
        exact last_key_not_in_kept hI.qkeys_nodup (by omega) hit hmem
      · rw [if_neg hmem, if_neg hmem]

end LFU

/-! ## The claims -/

namespace LFU

variable {K V : Type} [DecidableEq K]

/-- C1: starting from a freshly constructed cache, after any sequence of
public operations (add, get, remove, clear, limit assignment) the priority
queue satisfies `access_count[i] >= access_count[i+1]` at every pair of
adjacent slots. -/
theorem C1_sort_invariant (l : LimitArg) (c0 : LFUCache K V)
    (ops : List (Op K V)) (i : Nat) (a b : K × Nat)
    (h0 : init l = some c0)
    (ha : (run c0 ops).priority_queue[i]? = some a)
    (hb : (run c0 ops).priority_queue[i + 1]? = some b) :
    b.2 ≤ a.2 := by
  have hs := (run_inv (init_inv h0) ops).dq.sorted
  obtain ⟨hia, hga⟩ := List.getElem?_eq_some.mp ha
  obtain ⟨hib, hgb⟩ := List.getElem?_eq_some.mp hb
  have hp := List.pairwise_iff_getElem.mp hs i (i + 1) hia hib
    (Nat.lt_succ_self i)
  rw [hga, hgb] at hp
  exact hp

/-- Witness for C1 on a concrete two-entry run. -/
theorem C1_sort_invariant_witness : (1 : Nat) ≤ 2 :=
  C1_sort_invariant (K := String) (V := Nat) (.int 5) ⟨some 5, [], [], 0, 0⟩
    [.add "a" 1 false, .add "b" 2 false, .get "b" 0] 0 ("b", 2) ("a", 1)
    rfl rfl rfl

/-- C2: starting from a freshly constructed cache, after any sequence of
public operations the key index and the priority queue have equal size,
every indexed key points at the slot holding it, and every slot is indexed
under exactly its own key. -/
theorem C2_bijection (l : LimitArg) (c0 : LFUCache K V) (ops : List (Op K V))
    (h0 : init l = some c0) :
    (run c0 ops).cache_entries.length = (run c0 ops).priority_queue.length ∧
    (∀ (κ : K) (pr : Nat × V),
      dictLookup (run c0 ops).cache_entries κ = some pr →
      ∃ cnt, (run c0 ops).priority_queue[pr.1]? = some (κ, cnt)) ∧
    (∀ (i : Nat) (hi : i < (run c0 ops).priority_queue.length),
      ∃ v, dictLookup (run c0 ops).cache_entries
          (((run c0 ops).priority_queue.get ⟨i, hi⟩).1) = some (i, v)) := by
  have hInv := run_inv (init_inv h0) ops
  exact ⟨hInv.dq.len_eq, hInv.dq.points, fun i hi => hInv.dq.slot_lookup hi⟩

/-- Witness for C2 on a concrete one-entry run. -/
theorem C2_bijection_witness :
    ∃ cnt, (run (⟨some 2, [], [], 0, 0⟩ : LFUCache String Nat)
        [.add "b" 20 false]).priority_queue[(0 : Nat)]? = some ("b", cnt) :=
  (C2_bijection (.int 2) ⟨some 2, [], [], 0, 0⟩ [.add "b" 20 false] rfl).2.1
    "b" (0, 20) rfl

/-- C5: starting from a freshly constructed cache, after any sequence of
public operations the size is at most any finite limit, and with
`limit == 0` every `add` refuses and changes nothing. -/
theorem C5_capacity (l : LimitArg) (c0 : LFUCache K V) (ops : List (Op K V))
    (h0 : init l = some c0) :
    (∀ n, (run c0 ops).limit = some n →
      (run c0 ops).priority_queue.length ≤ n) ∧
    (∀ (c : LFUCache K V) (k : K) (v : V) (u : Bool), c.limit = some 0 →
      c.add k v u = (c, false)) :=
  ⟨(run_inv (init_inv h0) ops).cap, fun _ _ _ _ h => add_limit0 h⟩

/-- Witness for C5: three adds into a limit-2 cache keep the size at 2. -/
theorem C5_capacity_witness :
    (run (⟨some 2, [], [], 0, 0⟩ : LFUCache String Nat)
        [.add "a" 1 false, .add "b" 2 false, .add "c" 3 false]
      ).priority_queue.length ≤ 2 :=
  (C5_capacity (.int 2) ⟨some 2, [], [], 0, 0⟩
      [.add "a" 1 false, .add "b" 2 false, .add "c" 3 false] rfl).1 2 rfl

/-- C8: `get` on an absent key returns the supplied default and leaves the
whole state (entries, queue, hits, misses, limit) unchanged. -/
theorem C8_get_absent (c : LFUCache K V) (k : K) (dv : V)
    (h : c.has_cache k = false) : c.get k dv = (c, dv) := by
  simp [LFUCache.get, h]

/-- Witness for C8 on the seed cache with an absent key. -/
theorem C8_get_absent_witness :
    LFUCache.get seed5 "z" 7 = (seed5, 7) :=
  C8_get_absent seed5 "z" 7 rfl

end LFU

namespace LFU

variable {K V : Type} [DecidableEq K]

/-- C9: `add` returns false exactly when the limit is 0 or the key is
present without the update flag; a false return leaves the state unchanged,
and a true return increments `misses` by exactly 1 while leaving `hits` and
`limit` unchanged. -/
theorem C9_add_frame (c : LFUCache K V) (k : K) (v : V) (u : Bool) :
    ((c.add k v u).2 = false ↔
      (c.limit = some 0 ∨ (c.has_cache k = true ∧ u = false))) ∧
    ((c.add k v u).2 = false → (c.add k v u).1 = c) ∧
    ((c.add k v u).2 = true →
      (c.add k v u).1.misses = c.misses + 1 ∧
        (c.add k v u).1.hits = c.hits ∧
        (c.add k v u).1.limit = c.limit) := by
  by_cases h0 : c.limit = some 0
  · rw [add_limit0 h0]
    exact ⟨by simp [h0], fun _ => rfl, by simp⟩
  · cases hcb : c.has_cache k with
    | true =>
      cases u with
      | false =>
        rw [add_present_noupdate hcb h0]
        exact ⟨by simp [hcb], fun _ => rfl, by simp⟩
      | true =>
        rw [add_present_update hcb h0]
        refine ⟨by simp [h0], fun h => by simp at h, fun _ => ⟨?_, ?_, ?_⟩⟩
        · show (c.increment_access_count k).misses + 1 = c.misses + 1
          rw [(increment_frame c k).2.2]
        · exact (increment_frame c k).2.1
        · exact (increment_frame c k).1
    | false =>
      cases hlim : c.limit with
      | none =>
        rw [add_new_nolimit hcb hlim]
        exact ⟨by simp [hlim, hcb], fun h => by simp at h,
          fun _ => ⟨rfl, rfl, hlim⟩⟩
      | some l =>
        have hl0 : l ≠ 0 := fun h => h0 (by rw [hlim, h])
        by_cases hcap : l ≤ c.priority_queue.length
        · rw [add_new_evict hcb hlim hl0 hcap]
          refine ⟨by simp [hlim, hcb, hl0], fun h => by simp at h,
            fun _ => ⟨?_, ?_, ?_⟩⟩
          · show (c.remove_by_id (l - 1)).1.misses + 1 = c.misses + 1
            rw [(remove_by_id_frame c (l - 1)).2.2]
          · exact (remove_by_id_frame c (l - 1)).2.1
          · exact ((remove_by_id_frame c (l - 1)).1).trans hlim
        · rw [add_new_room hcb hlim hl0 hcap]
          exact ⟨by simp [hlim, hcb, hl0], fun h => by simp at h,
            fun _ => ⟨rfl, rfl, hlim⟩⟩

/-- Witness for C9: a rejected add on a limit-0 cache changes nothing. -/
theorem C9_add_frame_witness :
    ((⟨some 0, [], [], 0, 0⟩ : LFUCache String Nat).add "x" 5 false).2 =
        false ∧
      ((⟨some 0, [], [], 0, 0⟩ : LFUCache String Nat).add "x" 5 false).1 =
        ⟨some 0, [], [], 0, 0⟩ :=
  ⟨rfl, (C9_add_frame ⟨some 0, [], [], 0, 0⟩ "x" 5 false).2.1 rfl⟩

/-- C7: a limit value that is neither `None` nor a non-negative integer
makes the constructor raise and makes the setter raise with the state
unchanged; valid values never raise. -/
theorem C7_limit_validation (l : LimitArg) :
    (validLimitArg l = false →
      init (K := K) (V := V) l = none ∧
        ∀ c : LFUCache K V, c.setLimit l = (c, true)) ∧
    (validLimitArg l = true →
      (∃ c : LFUCache K V, init l = some c) ∧
        ∀ c : LFUCache K V, (c.setLimit l).2 = false) := by
  cases l with
  | nonelit =>
    exact ⟨fun h => by simp [validLimitArg] at h,
      fun _ => ⟨⟨_, rfl⟩, fun c => rfl⟩⟩
  | nonint =>
    exact ⟨fun _ => ⟨rfl, fun c => rfl⟩,
      fun h => by simp [validLimitArg] at h⟩
  | int n =>
    by_cases hn : n < 0
    · refine ⟨fun _ => ⟨by simp [init, hn], fun c => by
        simp [LFUCache.setLimit, hn]⟩, fun h => ?_⟩
      exfalso
      simp [validLimitArg] at h
      omega
    · refine ⟨fun h => ?_,
        fun _ => ⟨⟨⟨some n.toNat, [], [], 0, 0⟩, by simp [init, hn]⟩,
          fun c => by simp [LFUCache.setLimit, hn]⟩⟩
      exfalso
      simp [validLimitArg] at h
      omega

/-- Witness for C7 at the invalid limit `-1`. -/
theorem C7_limit_validation_witness :
    validLimitArg (.int (-1)) = false ∧
      init (K := String) (V := Nat) (.int (-1)) = none ∧
      (⟨some 2, [], [], 0, 0⟩ : LFUCache String Nat).setLimit (.int (-1)) =
        (⟨some 2, [], [], 0, 0⟩, true) :=
  ⟨by decide, ((C7_limit_validation (.int (-1))).1 (by decide)).1,
    ((C7_limit_validation (.int (-1))).1 (by decide)).2 _⟩

/-- C10 counterexample: it is not the case that every public method of
`LFUCache` enters `with self._lock` — `retrieve` (documented "NOT thread
safe" in the source) and `__len__` do not. -/
theorem C10_lock_counterexample :
    ¬ (∀ m : Method, acquiresLock m = true) := by
  intro h
  have := h Method.retrieve
  simp [acquiresLock] at this

/-- C10 amended: the mutating operations and the reading operations `get`
and `has_cache` enter `with self._lock`, but `__len__`, `retrieve` and the
plain property getters do not, so not all public operations are serialized
by the lock. -/
theorem C10_lock_amended :
    acquiresLock .limitSet = true ∧ acquiresLock .clear = true ∧
      acquiresLock .add = true ∧ acquiresLock .has_cache = true ∧
      acquiresLock .get = true ∧ acquiresLock .remove = true ∧
      acquiresLock .lenMethod = false ∧ acquiresLock .retrieve = false ∧
      acquiresLock .limitGet = false ∧ acquiresLock .hitsGet = false ∧
      acquiresLock .missesGet = false ∧ acquiresLock .initMethod = false := by
  decide

end LFU

namespace LFU

variable {K V : Type} [DecidableEq K]

/-- C3: an `add` of a new key on a cache whose size equals its finite
nonzero limit removes the record at slot `limit - 1`, appends the new key at
the lowest-priority slot with access count 1, keeps the size at the limit
and keeps every surviving record in its previous relative order; in
particular on the seed cache `add("over_limit_key", 99)` keeps the size at 5
and puts the new key at index 4 behind `"0" .. "3"` in order. -/
theorem C3_eviction (c : LFUCache K V) (n : Nat) (k : K) (v : V) (u : Bool)
    (hlim : c.limit = some n) (hn : n ≠ 0)
    (hlen : c.priority_queue.length = n) (habs : c.has_cache k = false) :
    ((c.add k v u).2 = true ∧
      (c.add k v u).1.priority_queue =
        c.priority_queue.dropLast ++ [(k, 1)] ∧
      (c.add k v u).1.priority_queue.length = n ∧
      dictLookup (c.add k v u).1.cache_entries k = some (n - 1, v)) ∧
    ((seed5.add "over_limit_key" 99 false).1.len = 5 ∧
      (seed5.add "over_limit_key" 99 false).1.retrieve =
        [⟨"0", 10, 1⟩, ⟨"1", 11, 1⟩, ⟨"2", 12, 1⟩, ⟨"3", 13, 1⟩,
          ⟨"over_limit_key", 99, 1⟩]) := by
  refine ⟨?_, rfl, rfl⟩
  have hcap : n ≤ c.priority_queue.length := by omega
  rw [add_new_evict habs hlim hn hcap]
  have hlt : n - 1 < c.priority_queue.length := by omega
  have hentry : c.priority_queue[n - 1]? =
      some (c.priority_queue.get ⟨n - 1, hlt⟩) := List.getElem?_eq_getElem hlt
  have hC1 : (c.remove_by_id (n - 1)).1 =
      { c with
        cache_entries := shiftLeft
          (dictDel c.cache_entries (c.priority_queue.get ⟨n - 1, hlt⟩).1)
          ((c.priority_queue.eraseIdx (n - 1)).drop (n - 1)),
        priority_queue := c.priority_queue.eraseIdx (n - 1) } := by
    simp only [LFUCache.remove_by_id, hentry]
  rw [hC1]
  have herase : c.priority_queue.eraseIdx (n - 1) =
      c.priority_queue.dropLast := by
    rw [← hlen]
    exact eraseIdx_last _
  refine ⟨rfl, ?_, ?_, ?_⟩
  · rw [herase]
  · rw [herase]
    simp [List.length_dropLast]
    omega
  · rw [dictLookup_dictSet_self, hlen]

/-- Witness for C3 on the seed cache. -/
theorem C3_eviction_witness :
    (seed5.add "over_limit_key" 99 false).2 = true ∧
      (seed5.add "over_limit_key" 99 false).1.priority_queue =
        seed5.priority_queue.dropLast ++ [("over_limit_key", 1)] ∧
      (seed5.add "over_limit_key" 99 false).1.priority_queue.length = 5 ∧
      dictLookup (seed5.add "over_limit_key" 99 false).1.cache_entries
        "over_limit_key" = some (4, 99) :=
  (C3_eviction seed5 5 "over_limit_key" 99 false rfl (by decide) (by rfl)
    (by rfl)).1

end LFU

namespace LFU

variable {K V : Type} [DecidableEq K]

/-- C6: assigning a non-negative integer to `limit` never raises, truncates
the queue to its first `n` slots, keeps exactly the surviving keys (with
their records) in the index and drops the rest, leaves everything untouched
when the new limit is at or above the current size or unbounded, and
setting `limit = 0` empties a non-empty cache. -/
theorem C6_resize_truncation (c : LFUCache K V) (n : Nat) (hI : Inv c) :
    (c.setLimit (.int (n : Int))).2 = false ∧
    (c.setLimit (.int (n : Int))).1.priority_queue =
      c.priority_queue.take n ∧
    (c.setLimit (.int (n : Int))).1.priority_queue.length =
      min n c.priority_queue.length ∧
    (∀ κ : K, κ ∈ qkeys (c.priority_queue.take n) →
      dictLookup (c.setLimit (.int (n : Int))).1.cache_entries κ =
        dictLookup c.cache_entries κ) ∧
    (∀ κ : K, κ ∉ qkeys (c.priority_queue.take n) →
      dictLookup (c.setLimit (.int (n : Int))).1.cache_entries κ = none) ∧
    (n = 0 → (c.setLimit (.int (n : Int))).1.priority_queue.length = 0) ∧
    (c.priority_queue.length ≤ n →
      (c.setLimit (.int (n : Int))).1 = { c with limit := some n }) ∧
    c.setLimit LimitArg.nonelit = ({ c with limit := none }, false) := by
  have hn0 : ¬ (n : Int) < 0 := by omega
  have hset : c.setLimit (.int (n : Int)) =
      ({ c with
          cache_entries := (truncate c.cache_entries c.priority_queue
            (c.priority_queue.length - n)).1,
          priority_queue := (truncate c.cache_entries c.priority_queue
            (c.priority_queue.length - n)).2,
          limit := some n }, false) := by
    simp [LFUCache.setLimit, hn0]
  rw [hset]
  obtain ⟨hdq, htk⟩ := truncate_inv (c.priority_queue.length - n)
    c.cache_entries c.priority_queue hI.dq
  have hlookup := truncate_lookup (c.priority_queue.length - n)
    c.cache_entries c.priority_queue hI.dq
  have htake_eq : c.priority_queue.take
      (c.priority_queue.length - (c.priority_queue.length - n)) =
      c.priority_queue.take n := by
    by_cases h : n ≤ c.priority_queue.length
    · have harr : c.priority_queue.length -
          (c.priority_queue.length - n) = n := by omega
      rw [harr]
    · have harr : c.priority_queue.length -
          (c.priority_queue.length - n) = c.priority_queue.length := by omega
      rw [harr, List.take_length, List.take_of_length_le (by omega)]
  refine ⟨rfl, ?_, ?_, ?_, ?_, ?_, ?_, rfl⟩
  · show (truncate c.cache_entries c.priority_queue
      (c.priority_queue.length - n)).2 = c.priority_queue.take n
    rw [htk, htake_eq]
  · show (truncate c.cache_entries c.priority_queue
      (c.priority_queue.length - n)).2.length = _
    rw [htk, htake_eq, List.length_take]
  · intro κ hκ
    show dictLookup (truncate c.cache_entries c.priority_queue
      (c.priority_queue.length - n)).1 κ = _
    rw [hlookup κ, htake_eq, if_pos hκ]
  · intro κ hκ
    show dictLookup (truncate c.cache_entries c.priority_queue
      (c.priority_queue.length - n)).1 κ = none
    rw [hlookup κ, htake_eq, if_neg hκ]
  · intro h0
    show (truncate c.cache_entries c.priority_queue
      (c.priority_queue.length - n)).2.length = 0
    rw [htk, htake_eq, h0]
    simp
  · intro hle
    have hm0 : c.priority_queue.length - n = 0 := by omega
    rw [hm0]
    rfl

/-- Witness for C6: shrinking the seed cache to limit 2 keeps exactly the
two highest-priority slots. -/
theorem C6_resize_truncation_witness :
    (seed5.setLimit (.int (2 : Int))).1.priority_queue =
      seed5.priority_queue.take 2 :=
  (C6_resize_truncation seed5 2
      (run_inv (init_inv (show init (.int 5) =
          some ⟨some 5, [], [], 0, 0⟩ from rfl))
        [.add "0" 10 false, .add "1" 11 false, .add "2" 12 false,
         .add "3" 13 false, .add "4" 14 false])).2.1

end LFU

namespace LFU

variable {K V : Type} [DecidableEq K]

/-- C4: after an access count increment the record moves to some slot `p`
at or before its old slot, every record it passed had a strictly smaller
count than its new count (so equal counts never swap), it stops at slot 0
or behind a neighbor of equal-or-greater count, and all other records keep
their relative order; in particular `get("4")` on the seed cache makes
`retrieve()[0]` hold key `"4"` with access count 2 and keeps `"0" .. "3"`
in order, and a following `get("3")` stops `"3"` at index 1 behind `"4"`. -/
theorem C4_promotion (c : LFUCache K V) (k : K) (pr : Nat × V) (cnt : Nat)
    (hI : Inv c) (hl : dictLookup c.cache_entries k = some pr)
    (hq : c.priority_queue[pr.1]? = some (k, cnt)) :
    (∃ p, p ≤ pr.1 ∧
      (c.increment_access_count k).priority_queue =
        c.priority_queue.take p ++ (k, cnt + 1) ::
          ((c.priority_queue.take pr.1).drop p) ++
          c.priority_queue.drop (pr.1 + 1) ∧
      dictLookup (c.increment_access_count k).cache_entries k =
        some (p, pr.2) ∧
      (∀ m, p ≤ m → m < pr.1 →
        ∃ e, c.priority_queue[m]? = some e ∧ e.2 < cnt + 1) ∧
      (0 < p →
        ∃ e, c.priority_queue[p - 1]? = some e ∧ cnt + 1 ≤ e.2)) ∧
    ((seed5.get "4" 0).1.retrieve =
        [⟨"4", 14, 2⟩, ⟨"0", 10, 1⟩, ⟨"1", 11, 1⟩, ⟨"2", 12, 1⟩,
          ⟨"3", 13, 1⟩] ∧
      ((seed5.get "4" 0).1.get "3" 0).1.retrieve =
        [⟨"4", 14, 2⟩, ⟨"3", 13, 2⟩, ⟨"0", 10, 1⟩, ⟨"1", 11, 1⟩,
          ⟨"2", 12, 1⟩]) := by
  refine ⟨?_, rfl, rfl⟩
  have hilt : pr.1 < c.priority_queue.length :=
    (List.getElem?_eq_some.mp hq).1
  have hnd : ((c.priority_queue.take pr.1).map Prod.fst).Nodup := by
    rw [List.map_take]
    exact hI.dq.qkeys_nodup.sublist
      (List.take_sublist pr.1 (c.priority_queue.map Prod.fst))
  rw [increment_eq hl hq hnd]
  have hple : finalPos (c.priority_queue.set pr.1 (k, cnt + 1)) (cnt + 1)
      pr.1 ≤ pr.1 := finalPos_le
  refine ⟨finalPos (c.priority_queue.set pr.1 (k, cnt + 1)) (cnt + 1) pr.1,
    hple, rfl, ?_, ?_, ?_⟩
  · -- the moved record's new index entry
    have hknotw : k ∉ qkeys ((c.priority_queue.take pr.1).drop
        (finalPos (c.priority_queue.set pr.1 (k, cnt + 1)) (cnt + 1)
          pr.1)) := by
      intro hmem
      obtain ⟨t, ht⟩ := List.mem_iff_getElem?.mp hmem
      rw [qkeys, List.getElem?_map] at ht
      cases hwt : ((c.priority_queue.take pr.1).drop
          (finalPos (c.priority_queue.set pr.1 (k, cnt + 1)) (cnt + 1)
            pr.1))[t]? with
      | none => rw [hwt] at ht; cases ht
      | some el =>
        rw [hwt, Option.map_some'] at ht
        injection ht with ht1
        have htlen := (List.getElem?_eq_some.mp hwt).1
        simp only [List.length_drop, List.length_take] at htlen
        rw [List.getElem?_drop, List.getElem?_take_of_lt (by omega)] at hwt
        have hlt2 := (List.getElem?_eq_some.mp hwt).1
        have hget : c.priority_queue.get ⟨finalPos
            (c.priority_queue.set pr.1 (k, cnt + 1)) (cnt + 1) pr.1 + t, hlt2⟩
            = el := by
          have hg := List.getElem?_eq_getElem hlt2
          rw [hg] at hwt
          injection hwt
        have hkat := hI.dq.key_at hl hlt2 (by rw [hget, ht1])
        omega
    rw [dictLookup_dictUpdate_self, bumpFrom_lookup_not_mem hknotw, hl]
    rfl
  · intro m h1 h2
    obtain ⟨e, he, hlt⟩ := finalPos_window h1 h2
    rw [List.getElem?_set_ne (by omega : pr.1 ≠ m)] at he
    exact ⟨e, he, hlt⟩
  · intro hP
    obtain ⟨e, he, hge⟩ := finalPos_stop (by rw [List.length_set]; omega) hP
    rw [List.getElem?_set_ne (by omega : pr.1 ≠ _)] at he
    exact ⟨e, he, hge⟩

/-- Witness for C4 on a concrete two-entry cache where `"b"` is promoted
past `"a"`. -/
theorem C4_promotion_witness :
    ∃ p, p ≤ 1 ∧
      (pair2.increment_access_count "b").priority_queue =
        pair2.priority_queue.take p ++ ("b", 2) ::
          ((pair2.priority_queue.take 1).drop p) ++
          pair2.priority_queue.drop 2 ∧
      dictLookup (pair2.increment_access_count "b").cache_entries "b" =
        some (p, 2) ∧
      (∀ m, p ≤ m → m < 1 →
        ∃ e, pair2.priority_queue[m]? = some e ∧ e.2 < 2) ∧
      (0 < p → ∃ e, pair2.priority_queue[p - 1]? = some e ∧ 2 ≤ e.2) :=
  (C4_promotion pair2 "b" (1, 2) 1
    (run_inv (init_inv (show init (.int 5) =
        some ⟨some 5, [], [], 0, 0⟩ from rfl))
      [.add "a" 1 false, .add "b" 2 false])
    (by rfl) (by rfl)).1

end LFU
